import Mathlib

/-!
Verification of `src/tools/convert_image_pair.cpp` (the paired-image ingestion
pipeline) against its natural-language specification.

The development is a shallow embedding of the tool:

* `split` embeds the C-string `split` helper (lines 46-60 of the source);
* `parseGo` / `parseManifest` embed the manifest `getline` loop
  (lines 95-105), including the fact that the loop variable `line_no`
  is never incremented, and the `std::stod(tokens[2])` conversion of the
  third token (line 104), whose fatal `invalid_argument` path is modelled
  by `stodOk`; the converted numeric value itself (a `double`) is needed by
  no claim, so the record keeps the token verbatim;
* `format_int` models `caffe::format_int` (declared in `caffe/util/format.hpp`,
  which is not part of the sources under verification) from the specification;
* `labelKeyStr` / `imageKeyStr` embed the two `key_str` constructions
  (lines 144 and 174);
* `labelLoop` / `labelPass` embed the label-store write loop (lines 129-161)
  and `imageLoop` / `imagePass` the image-store write loop (lines 172-214),
  with `ReadImagesToDatum` (an external collaborator) abstracted as an oracle
  `builder : Nat → Record → Option ImgDatum`;
* `run` embeds `main` end to end; store interactions are recorded as a trace
  of events (`Ev`), which is how "the store receives a put/commit" is stated.

Store primitives (`db::DB`, `db::Transaction`) and glog/gflags are external
collaborators; their calls are modelled as trace events, and a fatal
`CHECK_EQ` failure is modelled as truncating the trace with an aborted status.
-/

/-- A parsed manifest record: one line `path_a path_b scalar`.  The third
token is stored verbatim (`scalar_tok`); the source converts it with
`std::stod`, whose failure is modelled in the parse loop by `stodOk`, and
no claim depends on the converted numeric value itself. -/
structure Record where
  path_a : String
  path_b : String
  scalar_tok : String
deriving DecidableEq

/-- Embedding of the `split` helper (source lines 46-60): splits a string at
every occurrence of the delimiter `c`, keeping empty tokens, and always
produces at least one token (the C++ do/while pushes a token even for the
empty string). -/
def split (c : Char) : List Char → List (List Char)
  | [] => [[]]
  | x :: xs =>
    if x = c then [] :: split c xs
    else
      match split c xs with
      | t :: ts => (x :: t) :: ts
      | [] => [[x]]

/-- The characters accepted as whitespace in the C locale; `strtod` skips
them before attempting a conversion. -/
def isSpaceChar (c : Char) : Bool :=
  c == ' ' || c == '\t' || c == '\n' || c == '\x0b' || c == '\x0c' || c == '\r'

/-- Whether `strtod` can begin a conversion at this character sequence,
whitespace and sign already stripped: a decimal digit, a dot followed by a
digit, or a case-insensitive `inf` or `nan` (the hexadecimal form starts
with the digit `0` and falls under the first case). -/
def strtodStart : List Char → Bool
  | [] => false
  | c :: rest =>
    c.isDigit
    || (c == '.' && (match rest with
        | d :: _ => d.isDigit
        | [] => false))
    || (c.toLower == 'i' && (match rest with
        | n :: f :: _ => n.toLower == 'n' && f.toLower == 'f'
        | _ => false))
    || (c.toLower == 'n' && (match rest with
        | a :: n2 :: _ => a.toLower == 'a' && n2.toLower == 'n'
        | _ => false))

/-- Whether `std::stod` accepts the token.  `std::stod` throws
`invalid_argument` exactly when the underlying `strtod` performs no
conversion, i.e. when, after optional whitespace and an optional sign, the
text does not begin a numeric literal.  (The separate `out_of_range` throw,
for well-formed literals whose value falls outside the range of `double`,
is a floating-point range condition outside this model; no claim exercises
it.) -/
def stodOk (s : String) : Bool :=
  match s.data.dropWhile isSpaceChar with
  | '+' :: rest => strtodStart rest
  | '-' :: rest => strtodStart rest
  | cs => strtodStart cs

/-- The two fatal errors of the manifest parse loop (source lines 96-105):
the `runtime_error` thrown on a line that does not split into exactly 3
tokens (lines 98-103; its message embeds `line_no`, modelled as the carried
number), and the `invalid_argument` thrown by `std::stod` on a 3-token line
whose third token does not begin a numeric literal (line 104). -/
inductive ParseError where
  | tokenCount (line_no : Nat)
  | stodInvalid
deriving DecidableEq

/-- Embedding of the manifest parse loop body (source lines 95-105): the
token-count check, then the `std::stod` conversion of the third token
(line 104, evaluated while building the tuple, so its rejection aborts the
run before the push), then the `push_back` (the accumulator).  `line_no` is
threaded exactly as in the source, which declares it once and never
increments it. -/
def parseGo (line_no : Nat) (acc : List Record) : List String → Except ParseError (List Record)
  | [] => .ok acc
  | l :: ls =>
    match split ' ' l.data with
    | [a, b, t] =>
      if stodOk ⟨t⟩ then parseGo line_no (acc ++ [⟨⟨a⟩, ⟨b⟩, ⟨t⟩⟩]) ls
      else .error ParseError.stodInvalid
    | _ => .error (ParseError.tokenCount line_no)

/-- Embedding of the whole manifest read: `int line_no = 0;` then the
`getline` loop. -/
def parseManifest (ls : List String) : Except ParseError (List Record) :=
  parseGo 0 [] ls

/-- The record a well-formed (3-token) line parses to; used to state what
`parseManifest` returns on success. -/
def lineRecord (l : String) : Record :=
  match split ' ' l.data with
  | [a, b, t] => ⟨⟨a⟩, ⟨b⟩, ⟨t⟩⟩
  | _ => ⟨"", "", ""⟩

/-- Modelled from the spec: `caffe::format_int(n, width)` lives in
`caffe/util/format.hpp`, which is not among the sources under verification.
The specification defines the key prefix as `zero_pad(i, 8)`: the decimal
digits of `i`, left padded with `0` to the requested width.  A value needing
more digits than the width keeps its natural width (the iostream `setw`
semantics; the spec lists this overflow case as an undefined boundary). -/
def format_int (n : Nat) (width : Nat) : String :=
  ⟨List.replicate (width - (Nat.toDigits 10 n).length) '0' ++ Nat.toDigits 10 n⟩

/-- Embedding of the label-pass key construction (source line 144):
`format_int(line_id, 8) + "_" + path_a + "_" + path_b`. -/
def labelKeyStr (line_id : Nat) (r : Record) : String :=
  format_int line_id 8 ++ "_" ++ r.path_a ++ "_" ++ r.path_b

/-- Embedding of the image-pass key construction (source line 174):
`format_int(line_id, 8) + "_" + path_a + "_" + path_b`. -/
def imageKeyStr (line_id : Nat) (r : Record) : String :=
  format_int line_id 8 ++ "_" ++ r.path_a ++ "_" ++ r.path_b

/-- The label `Datum` built at source lines 131-145: channels/height/width
all 1, the single float slot holding the scalar (kept as its token), the
`label` field set to `line_id`, `param` set to the key, `encoded` false. -/
structure LabelPayload where
  channels : Nat
  height : Nat
  width : Nat
  scalar_tok : String
  label : Nat
  param : String
  encoded : Bool
deriving DecidableEq

/-- The label payload written for record `r` at final position `line_id`. -/
def labelPayloadOf (line_id : Nat) (r : Record) : LabelPayload :=
  ⟨1, 1, 1, r.scalar_tok, line_id, labelKeyStr line_id r, false⟩

/-- What `ReadImagesToDatum` produces on success: the image `Datum` fields
the tool reads back (channels/height/width and the byte buffer `data`). -/
structure ImgDatum where
  channels : Nat
  height : Nat
  width : Nat
  data : List UInt8
deriving DecidableEq

/-- The image payload written at source lines 196-201: the built datum with
`label` set to `line_id` and `param` set to the key. -/
structure ImagePayload where
  channels : Nat
  height : Nat
  width : Nat
  data : List UInt8
  label : Nat
  param : String
deriving DecidableEq

/-- The image payload written for record `r` at final position `line_id`,
given the builder output `d`. -/
def imagePayloadOf (line_id : Nat) (r : Record) (d : ImgDatum) : ImagePayload :=
  ⟨d.channels, d.height, d.width, d.data, line_id, imageKeyStr line_id r⟩

/-- Externally observable actions of the tool, in program order: opening the
manifest, opening each store, and the puts/commits staged on each store's
transaction. -/
inductive Ev where
  | readManifest (path : String)
  | openLabelStore (path : String)
  | openImageStore (path : String)
  | putLabel (key : String) (value : LabelPayload)
  | commitLabel
  | putImage (key : String) (value : ImagePayload)
  | commitImage
deriving DecidableEq

/-- Embedding of the label-store write loop (source lines 129-156):
`count` is the batch counter (incremented per put, commit when it reaches a
multiple of 1000), `line_id` the loop index.  Returns the events emitted and
the final value of `count`. -/
def labelLoop : Nat → Nat → List Record → List Ev × Nat
  | count, _, [] => ([], count)
  | count, line_id, r :: rs =>
    let key_str := labelKeyStr line_id r
    let evs := Ev.putLabel key_str (labelPayloadOf line_id r) ::
      (if (count + 1) % 1000 = 0 then [Ev.commitLabel] else [])
    let rest := labelLoop (count + 1) (line_id + 1) rs
    (evs ++ rest.1, rest.2)

/-- The whole label pass (source lines 129-161): the loop plus the final
partial-batch commit `if (count % 1000 != 0) txn1->Commit();`. -/
def labelPass (recs : List Record) : List Ev :=
  (labelLoop 0 0 recs).1 ++
    (if (labelLoop 0 0 recs).2 % 1000 = 0 then [] else [Ev.commitLabel])

/-- The mutable state of the image pass: the batch counter `count`
(source line 171 resets it to 0), and the `check_size` state
`data_size` / `data_size_initialized` (source lines 121-122). -/
structure ImgSt where
  count : Nat
  data_size : Nat
  data_size_initialized : Bool
deriving DecidableEq

/-- Embedding of the image-store write loop (source lines 172-209).
`builder` abstracts `ReadImagesToDatum` (resize and color options are folded
into the oracle); a `none` result is the skip-and-continue path (lines
181-185).  With `check_size` on, the first success records
`channels*height*width` (lines 187-189) and every later success is compared
by byte length (`CHECK_EQ`, lines 191-193); a mismatch is the glog fatal
abort, modelled by returning `none` as the final state, with no further
events.  Otherwise the put and batch-commit mirror the label loop. -/
def imageLoop (builder : Nat → Record → Option ImgDatum) (check_size : Bool) :
    Nat → ImgSt → List Record → List Ev × Option ImgSt
  | _, st, [] => ([], some st)
  | line_id, st, r :: rs =>
    match builder line_id r with
    | none => imageLoop builder check_size (line_id + 1) st rs
    | some d =>
      let st1 := if check_size && !st.data_size_initialized
        then ⟨st.count, d.channels * d.height * d.width, true⟩
        else st
      if check_size && st.data_size_initialized && (d.data.length != st.data_size) then
        ([], none)
      else
        let key_str := imageKeyStr line_id r
        let evs := Ev.putImage key_str (imagePayloadOf line_id r d) ::
          (if (st1.count + 1) % 1000 = 0 then [Ev.commitImage] else [])
        let rest := imageLoop builder check_size (line_id + 1)
          ⟨st1.count + 1, st1.data_size, st1.data_size_initialized⟩ rs
        (evs ++ rest.1, rest.2)

/-- The whole image pass (source lines 171-214): the loop plus, when it was
not aborted by the size check, the final partial-batch commit.  The boolean
is `true` when the pass aborted fatally. -/
def imagePass (builder : Nat → Record → Option ImgDatum) (check_size : Bool)
    (recs : List Record) : List Ev × Bool :=
  match imageLoop builder check_size 0 ⟨0, 0, false⟩ recs with
  | (evs, none) => (evs, true)
  | (evs, some st) =>
    (evs ++ (if st.count % 1000 = 0 then [] else [Ev.commitImage]), false)

/-- The configuration flags the pipeline logic branches on.  `gray`,
`resize_*`, `encoded` and `encode_type` only parameterize the external
`ReadImagesToDatum` collaborator and are folded into the builder oracle;
`backend` selects the store implementation behind the uniform interface. -/
structure Flags where
  shuffle : Bool
  check_size : Bool

/-- How a run of `main` terminates. -/
inductive Status where
  | usage
  | parseError (e : ParseError)
  | sizeAbort
  | ok
deriving DecidableEq

/-- Embedding of `main` (source lines 62-219).  `argv` is the full argument
vector (`argv[0]` the program name); `manifest` is the line contents of the
file at `argv[1]`; `shuf` abstracts the RNG-driven `shuffle` (line 109).
Missing argument slots are modelled by `getD` with `""` (the source reads
`argv[3]` even when `argc == 3`, where it is the terminating null pointer).
The trace lists events in program order: manifest read and parse, label
store opened at `argv[3]` and written, then image store opened at `argv[2]`
and written. -/
def run (argv : List String) (manifest : List String) (flags : Flags)
    (shuf : List Record → List Record)
    (builder : Nat → Record → Option ImgDatum) : List Ev × Status :=
  if argv.length < 3 then ([], .usage)
  else
    match parseManifest manifest with
    | .error e => ([Ev.readManifest (argv.getD 1 "")], .parseError e)
    | .ok recs0 =>
      let recs := if flags.shuffle then shuf recs0 else recs0
      let ip := imagePass builder flags.check_size recs
      ([Ev.readManifest (argv.getD 1 "")] ++
        [Ev.openLabelStore (argv.getD 3 "")] ++ labelPass recs ++
        [Ev.openImageStore (argv.getD 2 "")] ++ ip.1,
       if ip.2 then .sizeAbort else .ok)


/-- Pairs each element of a list with its position, starting at `i`; the
final-order index attached to each record. -/
def numbered : Nat → List Record → List (Nat × Record)
  | _, [] => []
  | i, r :: rs => (i, r) :: numbered (i + 1) rs

/-- The records, with positions starting at `i`, for which the image builder
succeeds, together with the datum it builds; these are exactly the image
puts the image pass stages. -/
def successItems (builder : Nat → Record → Option ImgDatum) :
    Nat → List Record → List (Nat × Record × ImgDatum)
  | _, [] => []
  | i, r :: rs =>
    match builder i r with
    | none => successItems builder (i + 1) rs
    | some d => (i, r, d) :: successItems builder (i + 1) rs

/-- The put event the label pass stages for the numbered record `p`. -/
def labelPut (p : Nat × Record) : Ev :=
  Ev.putLabel (labelKeyStr p.1 p.2) (labelPayloadOf p.1 p.2)

/-- The put event the image pass stages for the successful build `p`. -/
def imagePut (p : Nat × Record × ImgDatum) : Ev :=
  Ev.putImage (imageKeyStr p.1 p.2.1) (imagePayloadOf p.1 p.2.1 p.2.2)

/-- The batching discipline in the specification's words, with the put
counter at `n`: each item is put, and a commit follows each put that brings
the counter to a multiple of `batch`. -/
def specBatchedAux {α : Type} (put : α → Ev) (commit : Ev) (batch : Nat) :
    Nat → List α → List Ev
  | _, [] => []
  | n, x :: xs =>
    put x :: ((if (n + 1) % batch = 0 then [commit] else []) ++
      specBatchedAux put commit batch (n + 1) xs)

/-- The batching discipline in the specification's words: a commit exactly
after every `batch`-th put, and one final commit if and only if the number
of puts is not a multiple of `batch`. -/
def specBatched {α : Type} (put : α → Ev) (commit : Ev) (batch : Nat)
    (items : List α) : List Ev :=
  specBatchedAux put commit batch 0 items ++
    (if items.length % batch = 0 then [] else [commit])

/-- Occurrences of the event `e` in a trace. -/
def countEv (e : Ev) : List Ev → Nat
  | [] => 0
  | x :: xs => (if x = e then 1 else 0) + countEv e xs

/-- Events of a trace that satisfy `p`, counted; used to count puts. -/
def countEvP (p : Ev → Bool) : List Ev → Nat
  | [] => 0
  | x :: xs => (if p x then 1 else 0) + countEvP p xs

/-- Recognizes image-store put events. -/
def isImagePut : Ev → Bool
  | Ev.putImage _ _ => true
  | _ => false

/-- The last element of a list, if any. -/
def lastEv {α : Type} : List α → Option α
  | [] => none
  | x :: xs =>
    match lastEv xs with
    | none => some x
    | some y => some y

/-- The value of a list of decimal digit characters, most significant first;
leading zeros do not change it. -/
def digitsVal (cs : List Char) : Nat :=
  cs.foldl (fun a c => 10 * a + (c.toNat - 48)) 0

/-- Reads the final-order index back out of a key: the decimal value of the
digit run before the first separator.  Inverse to the key construction,
which is how key uniqueness across distinct indices is established. -/
def extractIndex (s : String) : Nat :=
  digitsVal (s.data.takeWhile (fun c => c != '_'))

/-- The `w` least significant decimal digits of `n`, zero padded to exactly
width `w`; agrees with `format_int n w` whenever `n < 10 ^ w`. -/
def fd : Nat → Nat → List Char
  | 0, _ => []
  | w + 1, n => fd w (n / 10) ++ [Nat.digitChar (n % 10)]

/-- The image-pass state after a successful build and put: the size-check
baseline possibly initialized from the first success, and the batch counter
incremented. -/
def imageStep (cs : Bool) (st : ImgSt) (d : ImgDatum) : ImgSt :=
  let st1 := if cs && !st.data_size_initialized
    then (⟨st.count, d.channels * d.height * d.width, true⟩ : ImgSt)
    else st
  ⟨st1.count + 1, st1.data_size, st1.data_size_initialized⟩

theorem toDigitsCore_append (fuel : Nat) : ∀ (n : Nat) (ds : List Char),
    Nat.toDigitsCore 10 fuel n ds = Nat.toDigitsCore 10 fuel n [] ++ ds := by
  induction fuel with
  | zero => intro n ds; simp [Nat.toDigitsCore]
  | succ f ih =>
    intro n ds
    simp only [Nat.toDigitsCore]
    by_cases h : n / 10 = 0
    · simp [h]
    · simp only [h, if_neg, if_false]
      rw [ih (n / 10) (Nat.digitChar (n % 10) :: ds),
        ih (n / 10) [Nat.digitChar (n % 10)]]
      simp

theorem toDigitsCore_fuel (n : Nat) : ∀ f1 f2 : Nat, n < f1 → n < f2 →
    Nat.toDigitsCore 10 f1 n [] = Nat.toDigitsCore 10 f2 n [] := by
  induction n using Nat.strong_induction_on with
  | _ n ih =>
    intro f1 f2 h1 h2
    match f1, f2 with
    | g1 + 1, g2 + 1 =>
      simp only [Nat.toDigitsCore]
      by_cases h : n / 10 = 0
      · simp [h]
      · simp only [h, if_neg, if_false]
        rw [toDigitsCore_append g1, toDigitsCore_append g2,
          ih (n / 10) (by omega) g1 g2 (by omega) (by omega)]

theorem toDigits_eq_lt10 (n : Nat) (h : n < 10) :
    Nat.toDigits 10 n = [Nat.digitChar n] := by
  show Nat.toDigitsCore 10 (n + 1) n [] = _
  simp [Nat.toDigitsCore, Nat.div_eq_of_lt h, Nat.mod_eq_of_lt h]

theorem toDigits_eq_ge10 (n : Nat) (h : 10 ≤ n) :
    Nat.toDigits 10 n = Nat.toDigits 10 (n / 10) ++ [Nat.digitChar (n % 10)] := by
  show Nat.toDigitsCore 10 (n + 1) n [] = _
  simp only [Nat.toDigitsCore]
  have h0 : ¬ n / 10 = 0 := by omega
  simp only [h0, if_neg, if_false]
  rw [toDigitsCore_append]
  congr 1
  exact toDigitsCore_fuel (n / 10) n (n / 10 + 1) (by omega) (by omega)

theorem toDigits_length_pos (n : Nat) : 1 ≤ (Nat.toDigits 10 n).length := by
  by_cases h : n < 10
  · rw [toDigits_eq_lt10 n h]; simp
  · rw [toDigits_eq_ge10 n (by omega)]; simp

theorem toDigits_length_le (w : Nat) : ∀ n, n < 10 ^ (w + 1) →
    (Nat.toDigits 10 n).length ≤ w + 1 := by
  induction w with
  | zero =>
    intro n h
    have h10 : (10 : Nat) ^ (0 + 1) = 10 := by norm_num
    rw [toDigits_eq_lt10 n (by omega)]
    simp
  | succ w ih =>
    intro n h
    by_cases h10 : n < 10
    · rw [toDigits_eq_lt10 n h10]; simp
    · rw [toDigits_eq_ge10 n (by omega)]
      have hp : (10 : Nat) ^ (w + 1 + 1) = 10 ^ (w + 1) * 10 := by ring
      have hd : n / 10 < 10 ^ (w + 1) := by omega
      have := ih (n / 10) hd
      simp only [List.length_append, List.length_singleton]
      omega

theorem digitChar_toNat : ∀ m, m < 10 → (Nat.digitChar m).toNat = 48 + m := by decide

theorem digitChar_ne_underscore : ∀ m, m < 10 → (Nat.digitChar m != '_') = true := by decide

theorem digitChar_mono : ∀ a, a < 10 → ∀ b, b < 10 → a < b →
    Nat.digitChar a < Nat.digitChar b := by decide

theorem toDigits_ne_underscore (n : Nat) : ∀ c ∈ Nat.toDigits 10 n, (c != '_') = true := by
  induction n using Nat.strong_induction_on with
  | _ n ih =>
    intro c hc
    by_cases h : n < 10
    · rw [toDigits_eq_lt10 n h] at hc
      simp only [List.mem_singleton] at hc
      subst hc
      exact digitChar_ne_underscore n h
    · rw [toDigits_eq_ge10 n (by omega)] at hc
      rcases List.mem_append.mp hc with h1 | h1
      · exact ih (n / 10) (by omega) c h1
      · simp only [List.mem_singleton] at h1
        subst h1
        exact digitChar_ne_underscore (n % 10) (by omega)

theorem digitsVal_toDigits (n : Nat) : digitsVal (Nat.toDigits 10 n) = n := by
  induction n using Nat.strong_induction_on with
  | _ n ih =>
    by_cases h : n < 10
    · rw [toDigits_eq_lt10 n h]
      show 10 * 0 + ((Nat.digitChar n).toNat - 48) = n
      rw [digitChar_toNat n h]
      omega
    · rw [toDigits_eq_ge10 n (by omega)]
      show List.foldl _ 0 (_ ++ [Nat.digitChar (n % 10)]) = n
      rw [List.foldl_append]
      have hv : List.foldl (fun a c => 10 * a + (c.toNat - 48)) 0 (Nat.toDigits 10 (n / 10))
          = n / 10 := ih (n / 10) (by omega)
      rw [hv]
      show 10 * (n / 10) + ((Nat.digitChar (n % 10)).toNat - 48) = n
      rw [digitChar_toNat (n % 10) (by omega)]
      omega

theorem digitsVal_replicate_zero (m : Nat) (ds : List Char) :
    digitsVal (List.replicate m '0' ++ ds) = digitsVal ds := by
  induction m with
  | zero => rfl
  | succ k ih =>
    show digitsVal ('0' :: (List.replicate k '0' ++ ds)) = digitsVal ds
    show List.foldl _ (10 * 0 + ('0'.toNat - 48)) _ = digitsVal ds
    exact ih

theorem format_int_data (n w : Nat) :
    (format_int n w).data
      = List.replicate (w - (Nat.toDigits 10 n).length) '0' ++ Nat.toDigits 10 n := rfl

theorem format_int_ne_underscore (n w : Nat) :
    ∀ c ∈ (format_int n w).data, (c != '_') = true := by
  intro c hc
  rw [format_int_data] at hc
  rcases List.mem_append.mp hc with h1 | h1
  · rw [List.eq_of_mem_replicate h1]
    decide
  · exact toDigits_ne_underscore n c h1

theorem digitsVal_format_int (n w : Nat) : digitsVal ((format_int n w).data) = n := by
  rw [format_int_data, digitsVal_replicate_zero, digitsVal_toDigits]

theorem labelKeyStr_data (i : Nat) (r : Record) :
    (labelKeyStr i r).data
      = (format_int i 8).data ++ '_' :: (r.path_a.data ++ '_' :: r.path_b.data) := by
  show (format_int i 8 ++ "_" ++ r.path_a ++ "_" ++ r.path_b).data = _
  simp [String.data_append]

theorem takeWhile_digits_append (xs ys : List Char)
    (h : ∀ c ∈ xs, (c != '_') = true) :
    List.takeWhile (fun c => c != '_') (xs ++ '_' :: ys) = xs := by
  induction xs with
  | nil => simp [List.takeWhile]
  | cons x xs ih =>
    show List.takeWhile (fun c => c != '_') (x :: (xs ++ '_' :: ys)) = x :: xs
    rw [List.takeWhile_cons]
    rw [h x (List.mem_cons_self x xs)]
    simp only [if_true]
    rw [ih (fun c hc => h c (List.mem_cons_of_mem x hc))]

theorem extractIndex_labelKeyStr (i : Nat) (r : Record) :
    extractIndex (labelKeyStr i r) = i := by
  unfold extractIndex
  rw [labelKeyStr_data,
    takeWhile_digits_append _ _ (format_int_ne_underscore i 8),
    digitsVal_format_int]

theorem imageKeyStr_eq_labelKeyStr (i : Nat) (r : Record) :
    imageKeyStr i r = labelKeyStr i r := rfl

theorem labelKeyStr_inj (i j : Nat) (r r' : Record)
    (h : labelKeyStr i r = labelKeyStr j r') : i = j := by
  have h2 := congrArg extractIndex h
  rwa [extractIndex_labelKeyStr, extractIndex_labelKeyStr] at h2

theorem fd_length (w : Nat) : ∀ n, (fd w n).length = w := by
  induction w with
  | zero => intro n; rfl
  | succ w ih =>
    intro n
    show (fd w (n / 10) ++ [Nat.digitChar (n % 10)]).length = w + 1
    simp [ih]

theorem fd_zero_eq (w : Nat) : fd w 0 = List.replicate w '0' := by
  induction w with
  | zero => rfl
  | succ w ih =>
    show fd w 0 ++ [Nat.digitChar 0] = List.replicate (w + 1) '0'
    rw [ih, List.replicate_succ']
    rfl

theorem fd_eq_format_int (w : Nat) : ∀ n, n < 10 ^ (w + 1) →
    fd (w + 1) n = (format_int n (w + 1)).data := by
  induction w with
  | zero =>
    intro n h
    have h10 : (10 : Nat) ^ (0 + 1) = 10 := by norm_num
    have hn : n < 10 := by omega
    show fd 0 (n / 10) ++ [Nat.digitChar (n % 10)] = _
    rw [format_int_data, toDigits_eq_lt10 n hn, Nat.mod_eq_of_lt hn]
    rfl
  | succ w ih =>
    intro n h
    by_cases h10 : n < 10
    · show fd (w + 1) (n / 10) ++ [Nat.digitChar (n % 10)] = _
      rw [Nat.div_eq_of_lt h10, Nat.mod_eq_of_lt h10, fd_zero_eq,
        format_int_data, toDigits_eq_lt10 n h10]
      rfl
    · have hp : (10 : Nat) ^ (w + 1 + 1) = 10 ^ (w + 1) * 10 := by ring
      have hd : n / 10 < 10 ^ (w + 1) := by omega
      show fd (w + 1) (n / 10) ++ [Nat.digitChar (n % 10)] = _
      rw [ih (n / 10) hd, format_int_data, format_int_data,
        toDigits_eq_ge10 n (by omega)]
      have hlen : (Nat.toDigits 10 (n / 10) ++ [Nat.digitChar (n % 10)]).length
          = (Nat.toDigits 10 (n / 10)).length + 1 := by simp
      rw [hlen, List.append_assoc]
      congr 2
      omega

theorem listlt_append (as bs u v : List Char) (hlen : as.length = bs.length)
    (h : List.Lex (fun x y => x < y) as bs) :
    List.Lex (fun x y => x < y) (as ++ u) (bs ++ v) := by
  revert hlen
  induction h with
  | nil => intro hlen; simp at hlen
  | cons h ih =>
    intro hlen
    exact List.Lex.cons (ih (by simpa using hlen))
  | rel hab => intro _; exact List.Lex.rel hab

theorem listlt_snoc (c d : Char) (hcd : c < d) (xs : List Char) :
    List.Lex (fun x y => x < y) (xs ++ [c]) (xs ++ [d]) :=
  List.Lex.append_left _ (List.Lex.rel hcd) xs

theorem fd_mono : ∀ w i j : Nat, i < j → j < 10 ^ w →
    List.Lex (fun x y => x < y) (fd w i) (fd w j) := by
  intro w
  induction w with
  | zero =>
    intro i j hij hj
    have : (10 : Nat) ^ 0 = 1 := by norm_num
    omega
  | succ w ih =>
    intro i j hij hj
    show List.Lex (fun x y => x < y) (fd w (i / 10) ++ [Nat.digitChar (i % 10)])
      (fd w (j / 10) ++ [Nat.digitChar (j % 10)])
    rcases Nat.lt_or_ge (i / 10) (j / 10) with hlt | hge
    · refine listlt_append _ _ _ _ (by rw [fd_length, fd_length]) ?_
      have hp : (10 : Nat) ^ (w + 1) = 10 ^ w * 10 := by ring
      exact ih (i / 10) (j / 10) hlt (by omega)
    · have heq : i / 10 = j / 10 :=
        Nat.le_antisymm (Nat.div_le_div_right (Nat.le_of_lt hij)) hge
      rw [heq]
      exact listlt_snoc _ _
        (digitChar_mono (i % 10) (by omega) (j % 10) (by omega) (by omega)) _

theorem labelKeyStr_lt (i j : Nat) (r r' : Record) (hij : i < j) (hj : j < 10 ^ 8) :
    labelKeyStr i r < labelKeyStr j r' := by
  rw [String.lt_iff_toList_lt]
  show List.Lex (fun x y => x < y) (labelKeyStr i r).data (labelKeyStr j r').data
  rw [labelKeyStr_data, labelKeyStr_data]
  have hfmt : ∀ n, n < 10 ^ 8 → (format_int n 8).data = fd 8 n := by
    intro n hn
    exact (fd_eq_format_int 7 n hn).symm
  rw [hfmt i (Nat.lt_trans hij hj), hfmt j hj]
  exact listlt_append _ _ _ _ (by rw [fd_length, fd_length]) (fd_mono 8 i j hij hj)

theorem countEv_append (e : Ev) (xs ys : List Ev) :
    countEv e (xs ++ ys) = countEv e xs + countEv e ys := by
  induction xs with
  | nil =>
    rw [List.nil_append]
    show countEv e ys = 0 + countEv e ys
    omega
  | cons x xs ih =>
    show (if x = e then 1 else 0) + countEv e (xs ++ ys) = _
    rw [ih]
    show _ = (if x = e then 1 else 0) + countEv e xs + countEv e ys
    omega

theorem countEv_specAux {α : Type} (put : α → Ev) (commit : Ev)
    (hpc : ∀ x, put x ≠ commit) :
    ∀ (xs : List α) (n : Nat),
    countEv commit (specBatchedAux put commit 1000 n xs)
      = (n + xs.length) / 1000 - n / 1000 := by
  intro xs
  induction xs with
  | nil => intro n; simp [specBatchedAux, countEv]
  | cons x xs ih =>
    intro n
    show countEv commit (put x ::
      ((if (n + 1) % 1000 = 0 then [commit] else []) ++
        specBatchedAux put commit 1000 (n + 1) xs)) = _
    show (if put x = commit then 1 else 0) + countEv commit _ = _
    rw [if_neg (hpc x), countEv_append, ih (n + 1)]
    by_cases h : (n + 1) % 1000 = 0
    · rw [if_pos h]
      show 0 + ((if commit = commit then 1 else 0) + 0 +
        ((n + 1 + xs.length) / 1000 - (n + 1) / 1000)) = _
      rw [if_pos rfl]
      show 0 + (1 + 0 + ((n + 1 + xs.length) / 1000 - (n + 1) / 1000))
        = (n + (x :: xs).length) / 1000 - n / 1000
      simp only [List.length_cons]
      omega
    · rw [if_neg h]
      show 0 + (0 + ((n + 1 + xs.length) / 1000 - (n + 1) / 1000))
        = (n + (x :: xs).length) / 1000 - n / 1000
      simp only [List.length_cons]
      omega

theorem countEv_specBatched {α : Type} (put : α → Ev) (commit : Ev)
    (hpc : ∀ x, put x ≠ commit) (xs : List α) :
    countEv commit (specBatched put commit 1000 xs)
      = xs.length / 1000 + (if xs.length % 1000 = 0 then 0 else 1) := by
  unfold specBatched
  rw [countEv_append, countEv_specAux put commit hpc xs 0]
  by_cases h : xs.length % 1000 = 0
  · rw [if_pos h, if_pos h]
    show (0 + xs.length) / 1000 - 0 / 1000 + countEv commit [] = _
    show (0 + xs.length) / 1000 - 0 / 1000 + 0 = _
    omega
  · rw [if_neg h, if_neg h]
    show (0 + xs.length) / 1000 - 0 / 1000 + countEv commit [commit] = _
    show (0 + xs.length) / 1000 - 0 / 1000 + ((if commit = commit then 1 else 0) + 0) = _
    rw [if_pos rfl]
    omega

theorem mem_specAux {α : Type} (put : α → Ev) (commit : Ev) (batch : Nat) :
    ∀ (xs : List α) (n : Nat) (e : Ev), e ∈ specBatchedAux put commit batch n xs →
    e = commit ∨ ∃ x ∈ xs, e = put x := by
  intro xs
  induction xs with
  | nil => intro n e he; exact absurd he (List.not_mem_nil e)
  | cons x xs ih =>
    intro n e he
    rcases List.mem_cons.mp he with h1 | h1
    · exact Or.inr ⟨x, List.mem_cons_self x xs, h1⟩
    · rcases List.mem_append.mp h1 with h2 | h2
      · by_cases hb : (n + 1) % batch = 0
        · rw [if_pos hb] at h2
          simp only [List.mem_singleton] at h2
          exact Or.inl h2
        · rw [if_neg hb] at h2
          exact absurd h2 (List.not_mem_nil e)
      · rcases ih (n + 1) e h2 with h3 | ⟨y, hy, he⟩
        · exact Or.inl h3
        · exact Or.inr ⟨y, List.mem_cons_of_mem x hy, he⟩

theorem specAux_put_mem {α : Type} (put : α → Ev) (commit : Ev) (batch : Nat) :
    ∀ (xs : List α) (n : Nat) (x : α), x ∈ xs →
    put x ∈ specBatchedAux put commit batch n xs := by
  intro xs
  induction xs with
  | nil => intro n x hx; exact absurd hx (List.not_mem_nil x)
  | cons y ys ih =>
    intro n x hx
    rcases List.mem_cons.mp hx with h1 | h1
    · subst h1; exact List.mem_cons_self _ _
    · exact List.mem_cons_of_mem _ (List.mem_append_right _ (ih (n + 1) x h1))

theorem mem_specBatched {α : Type} (put : α → Ev) (commit : Ev) (batch : Nat)
    (xs : List α) (e : Ev) (he : e ∈ specBatched put commit batch xs) :
    e = commit ∨ ∃ x ∈ xs, e = put x := by
  unfold specBatched at he
  rcases List.mem_append.mp he with h1 | h1
  · exact mem_specAux put commit batch xs 0 e h1
  · by_cases hb : xs.length % batch = 0
    · rw [if_pos hb] at h1
      exact absurd h1 (List.not_mem_nil e)
    · rw [if_neg hb] at h1
      simp only [List.mem_singleton] at h1
      exact Or.inl h1

theorem specBatched_put_mem {α : Type} (put : α → Ev) (commit : Ev) (batch : Nat)
    (xs : List α) (x : α) (hx : x ∈ xs) : put x ∈ specBatched put commit batch xs :=
  List.mem_append_left _ (specAux_put_mem put commit batch xs 0 x hx)

theorem lastEv_cons_some {α : Type} : ∀ (xs : List α) (x : α), ∃ z, lastEv (x :: xs) = some z := by
  intro xs
  induction xs with
  | nil => intro x; exact ⟨x, rfl⟩
  | cons y ys ih =>
    intro x
    obtain ⟨z, hz⟩ := ih y
    refine ⟨z, ?_⟩
    show (match lastEv (y :: ys) with
      | none => some x
      | some w => some w) = some z
    rw [hz]

theorem lastEv_cons_ne {α : Type} (x : α) (xs : List α) (h : xs ≠ []) :
    lastEv (x :: xs) = lastEv xs := by
  match xs, h with
  | y :: ys, _ =>
    obtain ⟨z, hz⟩ := lastEv_cons_some ys y
    show (match lastEv (y :: ys) with
      | none => some x
      | some w => some w) = lastEv (y :: ys)
    rw [hz]

theorem lastEv_append_ne {α : Type} (ys : List α) (hys : ys ≠ []) :
    ∀ xs : List α, lastEv (xs ++ ys) = lastEv ys := by
  intro xs
  induction xs with
  | nil => rfl
  | cons x xs ih =>
    rw [List.cons_append, lastEv_cons_ne x (xs ++ ys) ?_, ih]
    intro hcon
    rcases List.append_eq_nil.mp hcon with ⟨_, h2⟩
    exact hys h2

theorem lastEv_mem {α : Type} : ∀ (xs : List α) (z : α), lastEv xs = some z → z ∈ xs := by
  intro xs
  induction xs with
  | nil => intro z h; exact absurd h (by simp [lastEv])
  | cons x xs ih =>
    intro z h
    cases hx : lastEv xs with
    | none =>
      have : lastEv (x :: xs) = some x := by
        show (match lastEv xs with
          | none => some x
          | some w => some w) = some x
        rw [hx]
      rw [this] at h
      rw [Option.some_inj.mp h] at *
      exact List.mem_cons_self _ _
    | some y =>
      have : lastEv (x :: xs) = some y := by
        show (match lastEv xs with
          | none => some x
          | some w => some w) = some y
        rw [hx]
      rw [this] at h
      rw [← Option.some_inj.mp h] at *
      exact List.mem_cons_of_mem x (ih y hx)

theorem commit_after_put (c : Ev) (pre post : List Ev) (e : Ev)
    (hlast : lastEv (pre ++ e :: post) = some c) (hne : e ≠ c) : c ∈ post := by
  rw [lastEv_append_ne (e :: post) (by simp) pre] at hlast
  cases post with
  | nil =>
    have : lastEv [e] = some e := rfl
    rw [this] at hlast
    exact absurd (Option.some_inj.mp hlast) hne
  | cons q qs =>
    rw [lastEv_cons_ne e (q :: qs) (by simp)] at hlast
    exact lastEv_mem _ _ hlast

theorem specAux_ne_nil {α : Type} (put : α → Ev) (commit : Ev) (batch n : Nat)
    (xs : List α) (h : xs ≠ []) : specBatchedAux put commit batch n xs ≠ [] := by
  match xs, h with
  | x :: xs, _ =>
    show put x :: _ ≠ []
    simp

theorem specAux_last {α : Type} (put : α → Ev) (commit : Ev) :
    ∀ (xs : List α) (n : Nat), xs ≠ [] → (n + xs.length) % 1000 = 0 →
    lastEv (specBatchedAux put commit 1000 n xs) = some commit := by
  intro xs
  induction xs with
  | nil => intro n h; exact absurd rfl h
  | cons x xs ih =>
    intro n _ hmod
    cases xs with
    | nil =>
      have h1 : (n + 1) % 1000 = 0 := by
        have : (n + ([x] : List α).length) = n + 1 := by simp
        rw [this] at hmod
        exact hmod
      show lastEv (put x ::
        ((if (n + 1) % 1000 = 0 then [commit] else []) ++
          specBatchedAux put commit 1000 (n + 1) [])) = some commit
      rw [if_pos h1]
      rfl
    | cons y ys =>
      show lastEv (put x ::
        ((if (n + 1) % 1000 = 0 then [commit] else []) ++
          specBatchedAux put commit 1000 (n + 1) (y :: ys))) = some commit
      have hne2 : specBatchedAux put commit 1000 (n + 1) (y :: ys) ≠ [] :=
        specAux_ne_nil put commit 1000 (n + 1) (y :: ys) (by simp)
      rw [lastEv_cons_ne _ _ (by
        intro hcon
        rcases List.append_eq_nil.mp hcon with ⟨_, h2⟩
        exact hne2 h2)]
      rw [lastEv_append_ne _ hne2]
      refine ih (n + 1) (by simp) ?_
      have : n + (y :: ys).length + 1 = n + 1 + (y :: ys).length := by omega
      simp only [List.length_cons] at hmod ⊢
      omega

theorem specBatched_last {α : Type} (put : α → Ev) (commit : Ev)
    (xs : List α) (hxs : xs ≠ []) :
    lastEv (specBatched put commit 1000 xs) = some commit := by
  unfold specBatched
  by_cases h : xs.length % 1000 = 0
  · rw [if_pos h, List.append_nil]
    exact specAux_last put commit xs 0 hxs (by omega)
  · rw [if_neg h, lastEv_append_ne [commit] (by simp)]
    rfl

theorem specBatched_cover {α : Type} (put : α → Ev) (commit : Ev)
    (xs : List α) (pre post : List Ev) (e : Ev)
    (hT : specBatched put commit 1000 xs = pre ++ e :: post) (hne : e ≠ commit) :
    commit ∈ post := by
  have hxs : xs ≠ [] := by
    rintro rfl
    rw [show specBatched put commit 1000 ([] : List α) = [] from rfl] at hT
    exact absurd hT.symm (by simp)
  have hlast := specBatched_last put commit xs hxs
  rw [hT] at hlast
  exact commit_after_put commit pre post e hlast hne

theorem numbered_length : ∀ (rs : List Record) (i : Nat), (numbered i rs).length = rs.length := by
  intro rs
  induction rs with
  | nil => intro i; rfl
  | cons r rs ih =>
    intro i
    show (numbered (i + 1) rs).length + 1 = rs.length + 1
    rw [ih]

theorem labelLoop_count : ∀ (rs : List Record) (c i : Nat),
    (labelLoop c i rs).2 = c + rs.length := by
  intro rs
  induction rs with
  | nil => intro c i; rfl
  | cons r rs ih =>
    intro c i
    show (labelLoop (c + 1) (i + 1) rs).2 = c + (rs.length + 1)
    rw [ih]
    omega

theorem labelLoop_spec : ∀ (rs : List Record) (c i : Nat),
    (labelLoop c i rs).1 = specBatchedAux labelPut Ev.commitLabel 1000 c (numbered i rs) := by
  intro rs
  induction rs with
  | nil => intro c i; rfl
  | cons r rs ih =>
    intro c i
    show Ev.putLabel (labelKeyStr i r) (labelPayloadOf i r) ::
      ((if (c + 1) % 1000 = 0 then [Ev.commitLabel] else []) ++ (labelLoop (c + 1) (i + 1) rs).1)
      = specBatchedAux labelPut Ev.commitLabel 1000 c ((i, r) :: numbered (i + 1) rs)
    rw [ih]
    rfl

theorem labelPass_spec (recs : List Record) :
    labelPass recs = specBatched labelPut Ev.commitLabel 1000 (numbered 0 recs) := by
  unfold labelPass specBatched
  rw [labelLoop_spec, labelLoop_count, numbered_length]
  have : 0 + recs.length = recs.length := by omega
  rw [this]

theorem numbered_mem : ∀ (rs : List Record) (i : Nat) (p : Nat × Record),
    p ∈ numbered i rs →
    ∃ k, ∃ hk : k < rs.length, p.1 = i + k ∧ p.2 = rs.get ⟨k, hk⟩ := by
  intro rs
  induction rs with
  | nil => intro i p hp; exact absurd hp (List.not_mem_nil p)
  | cons r rs ih =>
    intro i p hp
    rcases List.mem_cons.mp hp with h1 | h1
    · exact ⟨0, by simp, by rw [h1]; omega, by simp [h1]⟩
    · obtain ⟨k, hk, h2, h3⟩ := ih (i + 1) p h1
      refine ⟨k + 1, by simp; omega, by omega, ?_⟩
      rw [h3]
      rfl

theorem numbered_mem_intro : ∀ (rs : List Record) (i k : Nat) (hk : k < rs.length),
    (i + k, rs.get ⟨k, hk⟩) ∈ numbered i rs := by
  intro rs
  induction rs with
  | nil => intro i k hk; exact absurd hk (by simp)
  | cons r rs ih =>
    intro i k hk
    cases k with
    | zero =>
      have : (i + 0, (r :: rs).get ⟨0, hk⟩) = (i, r) := by simp
      rw [this]
      exact List.mem_cons_self _ _
    | succ k =>
      have hk' : k < rs.length := by simpa using hk
      have : (i + (k + 1), (r :: rs).get ⟨k + 1, hk⟩) = ((i + 1) + k, rs.get ⟨k, hk'⟩) := by
        refine Prod.ext (by omega) rfl
      rw [this]
      exact List.mem_cons_of_mem _ (ih (i + 1) k hk')

theorem labelLoop_put_mem : ∀ (rs : List Record) (c i k : Nat) (hk : k < rs.length),
    Ev.putLabel (labelKeyStr (i + k) (rs.get ⟨k, hk⟩)) (labelPayloadOf (i + k) (rs.get ⟨k, hk⟩))
      ∈ (labelLoop c i rs).1 := by
  intro rs c i k hk
  rw [labelLoop_spec]
  exact specAux_put_mem labelPut Ev.commitLabel 1000 (numbered i rs) c
    (i + k, rs.get ⟨k, hk⟩) (numbered_mem_intro rs i k hk)

theorem labelPass_put_mem (recs : List Record) (k : Nat) (hk : k < recs.length) :
    Ev.putLabel (labelKeyStr k (recs.get ⟨k, hk⟩)) (labelPayloadOf k (recs.get ⟨k, hk⟩))
      ∈ labelPass recs := by
  unfold labelPass
  refine List.mem_append_left _ ?_
  have := labelLoop_put_mem recs 0 0 k hk
  simpa using this

theorem successItems_mem (builder : Nat → Record → Option ImgDatum) :
    ∀ (rs : List Record) (i : Nat) (x : Nat × Record × ImgDatum),
    x ∈ successItems builder i rs →
    ∃ k, ∃ hk : k < rs.length,
      x.1 = i + k ∧ x.2.1 = rs.get ⟨k, hk⟩ ∧ builder x.1 x.2.1 = some x.2.2 := by
  intro rs
  induction rs with
  | nil => intro i x hx; exact absurd hx (List.not_mem_nil x)
  | cons r rs ih =>
    intro i x hx
    cases hbr : builder i r with
    | none =>
      rw [show successItems builder i (r :: rs)
          = successItems builder (i + 1) rs by simp [successItems, hbr]] at hx
      obtain ⟨k, hk, h1, h2, h3⟩ := ih (i + 1) x hx
      exact ⟨k + 1, by simp; omega, by omega, by rw [h2]; rfl, h3⟩
    | some d =>
      rw [show successItems builder i (r :: rs)
          = (i, r, d) :: successItems builder (i + 1) rs by simp [successItems, hbr]] at hx
      rcases List.mem_cons.mp hx with h1 | h1
      · refine ⟨0, by simp, by rw [h1]; omega, by simp [h1], ?_⟩
        rw [h1]
        exact hbr
      · obtain ⟨k, hk, h1, h2, h3⟩ := ih (i + 1) x h1
        exact ⟨k + 1, by simp; omega, by omega, by rw [h2]; rfl, h3⟩

theorem successItems_mem_intro (builder : Nat → Record → Option ImgDatum) :
    ∀ (rs : List Record) (i k : Nat) (hk : k < rs.length) (d : ImgDatum),
    builder (i + k) (rs.get ⟨k, hk⟩) = some d →
    (i + k, rs.get ⟨k, hk⟩, d) ∈ successItems builder i rs := by
  intro rs
  induction rs with
  | nil => intro i k hk; exact absurd hk (by simp)
  | cons r rs ih =>
    intro i k hk d hbd
    cases k with
    | zero =>
      have hi : i + 0 = i := by omega
      rw [hi] at hbd ⊢
      have hget : (r :: rs).get ⟨0, hk⟩ = r := rfl
      rw [hget] at hbd ⊢
      rw [show successItems builder i (r :: rs)
          = (i, r, d) :: successItems builder (i + 1) rs by simp [successItems, hbd]]
      exact List.mem_cons_self _ _
    | succ k =>
      have hk' : k < rs.length := by simpa using hk
      have hsh : i + (k + 1) = (i + 1) + k := by omega
      have hget : (r :: rs).get ⟨k + 1, hk⟩ = rs.get ⟨k, hk'⟩ := rfl
      rw [hsh, hget] at hbd ⊢
      have hmem := ih (i + 1) k hk' d hbd
      cases hbr : builder i r with
      | none =>
        rw [show successItems builder i (r :: rs)
            = successItems builder (i + 1) rs by simp [successItems, hbr]]
        exact hmem
      | some d0 =>
        rw [show successItems builder i (r :: rs)
            = (i, r, d0) :: successItems builder (i + 1) rs by simp [successItems, hbr]]
        exact List.mem_cons_of_mem _ hmem

theorem successItems_append (builder : Nat → Record → Option ImgDatum) :
    ∀ (xs ys : List Record) (i : Nat),
    successItems builder i (xs ++ ys)
      = successItems builder i xs ++ successItems builder (i + xs.length) ys := by
  intro xs
  induction xs with
  | nil => intro ys i; simp [successItems]
  | cons x xs ih =>
    intro ys i
    cases hbr : builder i x with
    | none =>
      rw [List.cons_append,
        show successItems builder i (x :: (xs ++ ys))
          = successItems builder (i + 1) (xs ++ ys) by simp [successItems, hbr],
        show successItems builder i (x :: xs)
          = successItems builder (i + 1) xs by simp [successItems, hbr],
        ih ys (i + 1)]
      have : (i + 1) + xs.length = i + (x :: xs).length := by simp; omega
      rw [this]
    | some d =>
      rw [List.cons_append,
        show successItems builder i (x :: (xs ++ ys))
          = (i, x, d) :: successItems builder (i + 1) (xs ++ ys) by simp [successItems, hbr],
        show successItems builder i (x :: xs)
          = (i, x, d) :: successItems builder (i + 1) xs by simp [successItems, hbr],
        ih ys (i + 1)]
      have : (i + 1) + xs.length = i + (x :: xs).length := by simp; omega
      rw [this]
      rfl

theorem successItems_all_fail (builder : Nat → Record → Option ImgDatum) :
    ∀ (rs : List Record) (i : Nat),
    (∀ k (hk : k < rs.length), builder (i + k) (rs.get ⟨k, hk⟩) = none) →
    successItems builder i rs = [] := by
  intro rs
  induction rs with
  | nil => intro i _; rfl
  | cons r rs ih =>
    intro i h
    have h0 : builder i r = none := by
      have := h 0 (by simp)
      simpa using this
    rw [show successItems builder i (r :: rs)
        = successItems builder (i + 1) rs by simp [successItems, h0]]
    refine ih (i + 1) (fun k hk => ?_)
    have := h (k + 1) (by simpa using Nat.succ_lt_succ hk)
    rw [show (i + 1) + k = i + (k + 1) by omega]
    simpa using this

theorem imageLoop_skip (builder : Nat → Record → Option ImgDatum) (cs : Bool)
    (i : Nat) (st : ImgSt) (r : Record) (rs : List Record)
    (hbr : builder i r = none) :
    imageLoop builder cs i st (r :: rs) = imageLoop builder cs (i + 1) st rs := by
  simp [imageLoop, hbr]

theorem imageLoop_false (builder : Nat → Record → Option ImgDatum) :
    ∀ (rs : List Record) (i : Nat) (st : ImgSt),
    imageLoop builder false i st rs
      = (specBatchedAux imagePut Ev.commitImage 1000 st.count (successItems builder i rs),
         some ⟨st.count + (successItems builder i rs).length, st.data_size,
           st.data_size_initialized⟩) := by
  intro rs
  induction rs with
  | nil =>
    intro i st
    show ([], some st) = _
    simp [successItems, specBatchedAux]
  | cons r rs ih =>
    intro i st
    cases hbr : builder i r with
    | none =>
      rw [imageLoop_skip builder false i st r rs hbr, ih (i + 1) st,
        show successItems builder i (r :: rs)
          = successItems builder (i + 1) rs by simp [successItems, hbr]]
    | some d =>
      rw [show successItems builder i (r :: rs)
          = (i, r, d) :: successItems builder (i + 1) rs by simp [successItems, hbr]]
      simp only [imageLoop, hbr, Bool.false_and, Bool.and_self, Bool.false_eq_true,
        if_false, reduceIte]
      rw [ih (i + 1) ⟨st.count + 1, st.data_size, st.data_size_initialized⟩]
      have hc : st.count + 1 + (successItems builder (i + 1) rs).length
          = st.count + ((i, r, d) :: successItems builder (i + 1) rs).length := by
        simp
        omega
      rw [hc]
      rfl

theorem imageLoop_checked (builder : Nat → Record → Option ImgDatum) :
    ∀ (rs : List Record) (i : Nat) (st : ImgSt),
    st.data_size_initialized = true →
    (∀ x ∈ successItems builder i rs, x.2.2.data.length = st.data_size) →
    imageLoop builder true i st rs
      = (specBatchedAux imagePut Ev.commitImage 1000 st.count (successItems builder i rs),
         some ⟨st.count + (successItems builder i rs).length, st.data_size, true⟩) := by
  intro rs
  induction rs with
  | nil =>
    intro i st hinit _
    show ([], some st) = _
    rw [show successItems builder i [] = [] from rfl]
    show ([], some st) = ([], some ⟨st.count + 0, st.data_size, true⟩)
    rw [show st.count + 0 = st.count by omega, ← hinit]
  | cons r rs ih =>
    intro i st hinit hall
    cases hbr : builder i r with
    | none =>
      have hsi : successItems builder i (r :: rs) = successItems builder (i + 1) rs := by
        simp [successItems, hbr]
      rw [imageLoop_skip builder true i st r rs hbr, hsi]
      rw [hsi] at hall
      exact ih (i + 1) st hinit hall
    | some d =>
      have hsi : successItems builder i (r :: rs)
          = (i, r, d) :: successItems builder (i + 1) rs := by
        simp [successItems, hbr]
      rw [hsi] at hall ⊢
      have hmatch : d.data.length = st.data_size :=
        hall (i, r, d) (List.mem_cons_self _ _)
      simp only [imageLoop, hbr, hinit, Bool.not_true, Bool.and_false, if_false,
        Bool.true_and, Bool.and_true, hmatch, bne_self_eq_false, Bool.false_eq_true,
        reduceIte]
      rw [ih (i + 1) ⟨st.count + 1, st.data_size, true⟩ rfl
        (fun x hx => hall x (List.mem_cons_of_mem _ hx))]
      have hc : st.count + 1 + (successItems builder (i + 1) rs).length
          = st.count + ((i, r, d) :: successItems builder (i + 1) rs).length := by
        simp
        omega
      rw [hc]
      rfl

theorem imageLoop_allskip (builder : Nat → Record → Option ImgDatum) (cs : Bool) :
    ∀ (rs : List Record) (i : Nat) (st : ImgSt),
    (∀ k (hk : k < rs.length), builder (i + k) (rs.get ⟨k, hk⟩) = none) →
    imageLoop builder cs i st rs = ([], some st) := by
  intro rs
  induction rs with
  | nil => intro i st _; rfl
  | cons r rs ih =>
    intro i st h
    have h0 : builder i r = none := by
      have := h 0 (by simp)
      simpa using this
    rw [imageLoop_skip builder cs i st r rs h0]
    refine ih (i + 1) st (fun k hk => ?_)
    have := h (k + 1) (by simpa using Nat.succ_lt_succ hk)
    rw [show (i + 1) + k = i + (k + 1) by omega]
    simpa using this

theorem imageLoop_cons_put (builder : Nat → Record → Option ImgDatum) (cs : Bool)
    (i : Nat) (st : ImgSt) (x : Record) (xs : List Record) (d : ImgDatum)
    (hbr : builder i x = some d)
    (hc : ¬ (cs && st.data_size_initialized && (d.data.length != st.data_size)) = true) :
    imageLoop builder cs i st (x :: xs)
      = (Ev.putImage (imageKeyStr i x) (imagePayloadOf i x d) ::
          ((if (imageStep cs st d).count % 1000 = 0 then [Ev.commitImage] else []) ++
            (imageLoop builder cs (i + 1) (imageStep cs st d) xs).1),
         (imageLoop builder cs (i + 1) (imageStep cs st d) xs).2) := by
  simp only [imageLoop, hbr]
  rw [if_neg hc]
  rfl

theorem imageLoop_cons_abort (builder : Nat → Record → Option ImgDatum) (cs : Bool)
    (i : Nat) (st : ImgSt) (x : Record) (xs : List Record) (d : ImgDatum)
    (hbr : builder i x = some d)
    (hc : (cs && st.data_size_initialized && (d.data.length != st.data_size)) = true) :
    imageLoop builder cs i st (x :: xs) = ([], none) := by
  simp only [imageLoop, hbr, hc, if_true]

theorem imageLoop_append_some (builder : Nat → Record → Option ImgDatum) (cs : Bool) :
    ∀ (xs ys : List Record) (i : Nat) (st st1 : ImgSt) (e1 : List Ev),
    imageLoop builder cs i st xs = (e1, some st1) →
    imageLoop builder cs i st (xs ++ ys)
      = (e1 ++ (imageLoop builder cs (i + xs.length) st1 ys).1,
         (imageLoop builder cs (i + xs.length) st1 ys).2) := by
  intro xs
  induction xs with
  | nil =>
    intro ys i st st1 e1 h
    have h1 : ([] : List Ev) = e1 := congrArg Prod.fst h
    have h3 : st = st1 := Option.some_inj.mp (congrArg Prod.snd h)
    subst h3
    rw [← h1, List.nil_append, show i + ([] : List Record).length = i by simp,
      List.nil_append]
  | cons x xs ih =>
    intro ys i st st1 e1 h
    have hlen : i + 1 + xs.length = i + (x :: xs).length := by simp; omega
    cases hbr : builder i x with
    | none =>
      rw [imageLoop_skip builder cs i st x xs hbr] at h
      rw [List.cons_append, imageLoop_skip builder cs i st x (xs ++ ys) hbr,
        ih ys (i + 1) st st1 e1 h, hlen]
    | some d =>
      by_cases hc : (cs && st.data_size_initialized && (d.data.length != st.data_size)) = true
      · rw [imageLoop_cons_abort builder cs i st x xs d hbr hc] at h
        exact absurd (congrArg Prod.snd h) (by simp)
      · rw [imageLoop_cons_put builder cs i st x xs d hbr hc] at h
        have h2 : (imageLoop builder cs (i + 1) (imageStep cs st d) xs).2 = some st1 :=
          congrArg Prod.snd h
        have hx : imageLoop builder cs (i + 1) (imageStep cs st d) xs
            = ((imageLoop builder cs (i + 1) (imageStep cs st d) xs).1, some st1) := by
          rw [← h2]
        rw [List.cons_append, imageLoop_cons_put builder cs i st x (xs ++ ys) d hbr hc,
          ih ys (i + 1) (imageStep cs st d) st1 _ hx, hlen]
        have he1 : e1 = Ev.putImage (imageKeyStr i x) (imagePayloadOf i x d) ::
            ((if (imageStep cs st d).count % 1000 = 0 then [Ev.commitImage] else []) ++
              (imageLoop builder cs (i + 1) (imageStep cs st d) xs).1) :=
          (congrArg Prod.fst h).symm
        rw [he1]
        refine Prod.ext ?_ rfl
        show Ev.putImage _ _ :: (_ ++ _) = Ev.putImage _ _ :: (_ ++ _) ++ _
        simp [List.append_assoc]

theorem imageLoop_append_none (builder : Nat → Record → Option ImgDatum) (cs : Bool) :
    ∀ (xs ys : List Record) (i : Nat) (st : ImgSt) (e1 : List Ev),
    imageLoop builder cs i st xs = (e1, none) →
    imageLoop builder cs i st (xs ++ ys) = (e1, none) := by
  intro xs
  induction xs with
  | nil =>
    intro ys i st e1 h
    exact Option.noConfusion (show some st = none from congrArg Prod.snd h)
  | cons x xs ih =>
    intro ys i st e1 h
    cases hbr : builder i x with
    | none =>
      rw [imageLoop_skip builder cs i st x xs hbr] at h
      rw [List.cons_append, imageLoop_skip builder cs i st x (xs ++ ys) hbr,
        ih ys (i + 1) st e1 h]
    | some d =>
      by_cases hc : (cs && st.data_size_initialized && (d.data.length != st.data_size)) = true
      · rw [imageLoop_cons_abort builder cs i st x xs d hbr hc] at h
        have h1 : ([] : List Ev) = e1 := congrArg Prod.fst h
        rw [List.cons_append, imageLoop_cons_abort builder cs i st x (xs ++ ys) d hbr hc, ← h1]
      · rw [imageLoop_cons_put builder cs i st x xs d hbr hc] at h
        have h2 : (imageLoop builder cs (i + 1) (imageStep cs st d) xs).2 = none :=
          congrArg Prod.snd h
        have hx : imageLoop builder cs (i + 1) (imageStep cs st d) xs
            = ((imageLoop builder cs (i + 1) (imageStep cs st d) xs).1, none) := by
          rw [← h2]
        rw [List.cons_append, imageLoop_cons_put builder cs i st x (xs ++ ys) d hbr hc,
          ih ys (i + 1) (imageStep cs st d) _ hx]
        have he1 : e1 = Ev.putImage (imageKeyStr i x) (imagePayloadOf i x d) ::
            ((if (imageStep cs st d).count % 1000 = 0 then [Ev.commitImage] else []) ++
              (imageLoop builder cs (i + 1) (imageStep cs st d) xs).1) :=
          (congrArg Prod.fst h).symm
        rw [he1]

theorem length3_cases (xs : List (List Char)) (h : xs.length = 3) :
    ∃ a b t, xs = [a, b, t] := by
  cases xs with
  | nil => simp at h
  | cons a xs =>
    cases xs with
    | nil => simp at h
    | cons b xs =>
      cases xs with
      | nil => simp at h
      | cons t xs =>
        cases xs with
        | nil => exact ⟨a, b, t, rfl⟩
        | cons u xs => simp at h

theorem parseGo_cons_ok (n : Nat) (acc : List Record) (l : String) (ls : List String)
    (a b t : List Char) (hsh : split ' ' l.data = [a, b, t])
    (hst : stodOk ⟨t⟩ = true) :
    parseGo n acc (l :: ls) = parseGo n (acc ++ [⟨⟨a⟩, ⟨b⟩, ⟨t⟩⟩]) ls := by
  simp only [parseGo, hsh]
  rw [if_pos hst]

theorem parseGo_cons_stod_err (n : Nat) (acc : List Record) (l : String) (ls : List String)
    (a b t : List Char) (hsh : split ' ' l.data = [a, b, t])
    (hst : stodOk ⟨t⟩ = false) :
    parseGo n acc (l :: ls) = .error ParseError.stodInvalid := by
  simp only [parseGo, hsh]
  rw [if_neg (by simp [hst])]

theorem parseGo_cons_err (n : Nat) (acc : List Record) (l : String) (ls : List String)
    (hl : (split ' ' l.data).length ≠ 3) :
    parseGo n acc (l :: ls) = .error (ParseError.tokenCount n) := by
  rcases hsh : split ' ' l.data with _ | ⟨a, _ | ⟨b, _ | ⟨t, _ | ⟨u, rest⟩⟩⟩⟩
  · simp only [parseGo, hsh]
  · simp only [parseGo, hsh]
  · simp only [parseGo, hsh]
  · exact absurd (by rw [hsh]; rfl) hl
  · simp only [parseGo, hsh]

theorem lineRecord_eq (l : String) (a b t : List Char)
    (hsh : split ' ' l.data = [a, b, t]) : lineRecord l = ⟨⟨a⟩, ⟨b⟩, ⟨t⟩⟩ := by
  unfold lineRecord
  rw [hsh]

theorem parseGo_ok : ∀ (ls : List String) (n : Nat) (acc : List Record),
    (∀ l ∈ ls, (split ' ' l.data).length = 3) →
    (∀ l ∈ ls, stodOk (lineRecord l).scalar_tok = true) →
    parseGo n acc ls = .ok (acc ++ ls.map lineRecord) := by
  intro ls
  induction ls with
  | nil => intro n acc _ _; simp [parseGo]
  | cons l ls ih =>
    intro n acc h hnum
    obtain ⟨a, b, t, hsh⟩ := length3_cases _ (h l (List.mem_cons_self _ _))
    have hst : stodOk ⟨t⟩ = true := by
      have h0 := hnum l (List.mem_cons_self _ _)
      rw [lineRecord_eq l a b t hsh] at h0
      exact h0
    rw [parseGo_cons_ok n acc l ls a b t hsh hst,
      ih n (acc ++ [(⟨⟨a⟩, ⟨b⟩, ⟨t⟩⟩ : Record)]) (fun w hw => h w (List.mem_cons_of_mem _ hw))
        (fun w hw => hnum w (List.mem_cons_of_mem _ hw)),
      List.map_cons, lineRecord_eq l a b t hsh, List.append_assoc]
    rfl

theorem parseGo_err : ∀ (ls : List String) (n : Nat) (acc : List Record),
    (∃ l ∈ ls, (split ' ' l.data).length ≠ 3) →
    ∃ e, parseGo n acc ls = .error e := by
  intro ls
  induction ls with
  | nil => intro n acc h; obtain ⟨w, hw, _⟩ := h; exact absurd hw (List.not_mem_nil w)
  | cons l ls ih =>
    intro n acc h
    by_cases hl : (split ' ' l.data).length = 3
    · obtain ⟨a, b, t, hsh⟩ := length3_cases _ hl
      by_cases hst : stodOk ⟨t⟩ = true
      · rw [parseGo_cons_ok n acc l ls a b t hsh hst]
        refine ih n _ ?_
        obtain ⟨w, hw, hwbad⟩ := h
        rcases List.mem_cons.mp hw with h1 | h1
        · exact absurd hl (h1 ▸ hwbad)
        · exact ⟨w, h1, hwbad⟩
      · have hst2 : stodOk ⟨t⟩ = false := by
          revert hst
          cases stodOk (⟨t⟩ : String) with
          | false => intro _; rfl
          | true => intro hcon; exact absurd rfl hcon
        exact ⟨ParseError.stodInvalid, parseGo_cons_stod_err n acc l ls a b t hsh hst2⟩
    · exact ⟨ParseError.tokenCount n, parseGo_cons_err n acc l ls hl⟩

theorem parseManifest_ok (ls : List String)
    (h : ∀ l ∈ ls, (split ' ' l.data).length = 3)
    (hnum : ∀ l ∈ ls, stodOk (lineRecord l).scalar_tok = true) :
    parseManifest ls = .ok (ls.map lineRecord) := by
  unfold parseManifest
  rw [parseGo_ok ls 0 [] h hnum]
  rfl

theorem parseManifest_err (ls : List String)
    (h : ∃ l ∈ ls, (split ' ' l.data).length ≠ 3) :
    ∃ e, parseManifest ls = .error e :=
  parseGo_err ls 0 [] h

theorem getD_replicate_self {α : Type} (a : α) : ∀ (n m : Nat),
    (List.replicate n a).getD m a = a := by
  intro n
  induction n with
  | zero => intro m; rfl
  | succ k ih =>
    intro m
    cases m with
    | zero => rfl
    | succ m =>
      show (List.replicate k a).getD m a = a
      exact ih m

theorem imagePass_false (builder : Nat → Record → Option ImgDatum) (recs : List Record) :
    imagePass builder false recs
      = (specBatched imagePut Ev.commitImage 1000 (successItems builder 0 recs), false) := by
  unfold imagePass
  rw [imageLoop_false builder recs 0 ⟨0, 0, false⟩]
  show (specBatchedAux imagePut Ev.commitImage 1000 0 (successItems builder 0 recs) ++
    (if (0 + (successItems builder 0 recs).length) % 1000 = 0 then [] else [Ev.commitImage]),
    false) = _
  rw [show (0 : Nat) + (successItems builder 0 recs).length
    = (successItems builder 0 recs).length by omega]
  rfl

theorem run_parse_err (argv manifest : List String) (flags : Flags)
    (shuf : List Record → List Record) (builder : Nat → Record → Option ImgDatum)
    (h3 : 3 ≤ argv.length)
    (hbad : ∃ l ∈ manifest, (split ' ' l.data).length ≠ 3) :
    ∃ e, run argv manifest flags shuf builder
      = ([Ev.readManifest (argv.getD 1 "")], .parseError e) := by
  obtain ⟨e, he⟩ := parseManifest_err manifest hbad
  refine ⟨e, ?_⟩
  unfold run
  rw [if_neg (by omega), he]

theorem run_parse_ok (argv manifest : List String) (flags : Flags)
    (shuf : List Record → List Record) (builder : Nat → Record → Option ImgDatum)
    (h3 : 3 ≤ argv.length)
    (hok : ∀ l ∈ manifest, (split ' ' l.data).length = 3)
    (hnum : ∀ l ∈ manifest, stodOk (lineRecord l).scalar_tok = true) :
    run argv manifest flags shuf builder
      = ([Ev.readManifest (argv.getD 1 "")] ++
          [Ev.openLabelStore (argv.getD 3 "")] ++
          labelPass (if flags.shuffle then shuf (manifest.map lineRecord)
            else manifest.map lineRecord) ++
          [Ev.openImageStore (argv.getD 2 "")] ++
          (imagePass builder flags.check_size
            (if flags.shuffle then shuf (manifest.map lineRecord)
              else manifest.map lineRecord)).1,
         if (imagePass builder flags.check_size
            (if flags.shuffle then shuf (manifest.map lineRecord)
              else manifest.map lineRecord)).2 then .sizeAbort else .ok) := by
  unfold run
  rw [if_neg (by omega), parseManifest_ok manifest hok hnum]

theorem imageLoop_mem_kind (builder : Nat → Record → Option ImgDatum) (cs : Bool) :
    ∀ (rs : List Record) (i : Nat) (st : ImgSt) (e : Ev),
    e ∈ (imageLoop builder cs i st rs).1 →
    (∃ k v, e = Ev.putImage k v) ∨ e = Ev.commitImage := by
  intro rs
  induction rs with
  | nil => intro i st e he; exact absurd he (List.not_mem_nil e)
  | cons r rs ih =>
    intro i st e he
    cases hbr : builder i r with
    | none =>
      rw [imageLoop_skip builder cs i st r rs hbr] at he
      exact ih (i + 1) st e he
    | some d =>
      by_cases hc : (cs && st.data_size_initialized && (d.data.length != st.data_size)) = true
      · rw [imageLoop_cons_abort builder cs i st r rs d hbr hc] at he
        exact absurd he (List.not_mem_nil e)
      · rw [imageLoop_cons_put builder cs i st r rs d hbr hc] at he
        rcases List.mem_cons.mp he with h1 | h1
        · exact Or.inl ⟨_, _, h1⟩
        · rcases List.mem_append.mp h1 with h2 | h2
          · by_cases hb : (imageStep cs st d).count % 1000 = 0
            · rw [if_pos hb] at h2
              simp only [List.mem_singleton] at h2
              exact Or.inr h2
            · rw [if_neg hb] at h2
              exact absurd h2 (List.not_mem_nil e)
          · exact ih (i + 1) (imageStep cs st d) e h2

theorem imagePass_mem_kind (builder : Nat → Record → Option ImgDatum) (cs : Bool)
    (recs : List Record) (e : Ev) (he : e ∈ (imagePass builder cs recs).1) :
    (∃ k v, e = Ev.putImage k v) ∨ e = Ev.commitImage := by
  unfold imagePass at he
  rcases hL : imageLoop builder cs 0 ⟨0, 0, false⟩ recs with ⟨evs, fin⟩
  rw [hL] at he
  cases fin with
  | none =>
    have : e ∈ evs := he
    have h2 : e ∈ (imageLoop builder cs 0 ⟨0, 0, false⟩ recs).1 := by rw [hL]; exact this
    exact imageLoop_mem_kind builder cs recs 0 ⟨0, 0, false⟩ e h2
  | some st =>
    have : e ∈ evs ++ (if st.count % 1000 = 0 then [] else [Ev.commitImage]) := he
    rcases List.mem_append.mp this with h1 | h1
    · have h2 : e ∈ (imageLoop builder cs 0 ⟨0, 0, false⟩ recs).1 := by rw [hL]; exact h1
      exact imageLoop_mem_kind builder cs recs 0 ⟨0, 0, false⟩ e h2
    · by_cases hb : st.count % 1000 = 0
      · rw [if_pos hb] at h1
        exact absurd h1 (List.not_mem_nil e)
      · rw [if_neg hb] at h1
        simp only [List.mem_singleton] at h1
        exact Or.inr h1

theorem labelPass_mem_kind (recs : List Record) (e : Ev) (he : e ∈ labelPass recs) :
    (∃ k v, e = Ev.putLabel k v) ∨ e = Ev.commitLabel := by
  rw [labelPass_spec] at he
  rcases mem_specBatched labelPut Ev.commitLabel 1000 (numbered 0 recs) e he with h | ⟨x, _, h⟩
  · exact Or.inr h
  · exact Or.inl ⟨_, _, h⟩

theorem countEvP_append (p : Ev → Bool) (xs ys : List Ev) :
    countEvP p (xs ++ ys) = countEvP p xs + countEvP p ys := by
  induction xs with
  | nil =>
    rw [List.nil_append]
    show countEvP p ys = 0 + countEvP p ys
    omega
  | cons x xs ih =>
    show (if p x then 1 else 0) + countEvP p (xs ++ ys) = _
    rw [ih]
    show _ = (if p x then 1 else 0) + countEvP p xs + countEvP p ys
    omega

theorem countEvP_specAux {α : Type} (p : Ev → Bool) (put : α → Ev) (commit : Ev)
    (batch : Nat) (hput : ∀ x, p (put x) = true) (hcommit : p commit = false) :
    ∀ (xs : List α) (n : Nat), countEvP p (specBatchedAux put commit batch n xs) = xs.length := by
  intro xs
  induction xs with
  | nil => intro n; rfl
  | cons x xs ih =>
    intro n
    show (if p (put x) then 1 else 0) +
      countEvP p ((if (n + 1) % batch = 0 then [commit] else []) ++
        specBatchedAux put commit batch (n + 1) xs) = xs.length + 1
    rw [hput x, countEvP_append, ih (n + 1)]
    by_cases h : (n + 1) % batch = 0
    · rw [if_pos h]
      show (if True then 1 else 0) + ((if p commit then 1 else 0) + 0 + xs.length)
        = xs.length + 1
      rw [hcommit]
      simp
      omega
    · rw [if_neg h]
      show (if True then 1 else 0) + (0 + xs.length) = xs.length + 1
      simp
      omega

theorem imageLoop_mismatch (recs : List Record) (builder : Nat → Record → Option ImgDatum)
    (f j : Nat) (hfj : f < j) (hj : j < recs.length) (d0 dj : ImgDatum)
    (hf : builder f (recs.get ⟨f, Nat.lt_trans hfj hj⟩) = some d0)
    (hfirst : ∀ k (hk : k < recs.length), k < f → builder k (recs.get ⟨k, hk⟩) = none)
    (hjs : builder j (recs.get ⟨j, hj⟩) = some dj)
    (hmis : dj.data.length ≠ d0.channels * d0.height * d0.width)
    (hmid : ∀ k (hk : k < recs.length), f < k → k < j →
      ∀ d, builder k (recs.get ⟨k, hk⟩) = some d →
      d.data.length = d0.channels * d0.height * d0.width) :
    imageLoop builder true 0 ⟨0, 0, false⟩ recs
      = (specBatchedAux imagePut Ev.commitImage 1000 0 (successItems builder 0 (recs.take j)),
         none) := by
  have hfl : f < recs.length := Nat.lt_trans hfj hj
  have hAlen : (recs.take f).length = f := List.length_take_of_le (Nat.le_of_lt hfl)
  have hBlen : ((recs.drop (f + 1)).take (j - f - 1)).length = j - f - 1 := by
    refine List.length_take_of_le ?_
    rw [List.length_drop]
    omega
  have htakej : recs.take j
      = recs.take f ++ recs.get ⟨f, hfl⟩ :: (recs.drop (f + 1)).take (j - f - 1) := by
    have h1 : j = f + (j - f) := by omega
    rw [h1, List.take_add, List.drop_eq_get_cons hfl,
      show j - f = (j - f - 1) + 1 by omega, List.take_cons_succ,
      show f + (j - f - 1 + 1) - f - 1 = j - f - 1 from by omega]
  have hAskip : ∀ k (hk : k < (recs.take f).length),
      builder (0 + k) ((recs.take f).get ⟨k, hk⟩) = none := by
    intro k hk
    have hkf : k < f := by
      rw [hAlen] at hk
      exact hk
    have hget : (recs.take f).get ⟨k, hk⟩ = recs.get ⟨k, Nat.lt_trans hkf hfl⟩ := by
      rw [List.get_eq_getElem, List.get_eq_getElem, List.getElem_take]
    rw [show 0 + k = k by omega, hget]
    exact hfirst k (Nat.lt_trans hkf hfl) hkf
  have hA : imageLoop builder true 0 ⟨0, 0, false⟩ (recs.take f) = ([], some ⟨0, 0, false⟩) :=
    imageLoop_allskip builder true (recs.take f) 0 ⟨0, 0, false⟩ hAskip
  have hallB : ∀ x ∈ successItems builder (f + 1) ((recs.drop (f + 1)).take (j - f - 1)),
      x.2.2.data.length
        = ((⟨1, d0.channels * d0.height * d0.width, true⟩ : ImgSt)).data_size := by
    intro x hx
    obtain ⟨k, hk, h1, h2, h3⟩ := successItems_mem builder _ (f + 1) x hx
    have hkb : k < j - f - 1 := by
      rw [hBlen] at hk
      exact hk
    have hbound : f + 1 + k < recs.length := by omega
    have hget : ((recs.drop (f + 1)).take (j - f - 1)).get ⟨k, hk⟩
        = recs.get ⟨f + 1 + k, hbound⟩ := by
      rw [List.get_eq_getElem, List.get_eq_getElem, List.getElem_take, List.getElem_drop]
    rw [h2, hget] at h3
    rw [h1] at h3
    exact hmid (f + 1 + k) hbound (by omega) (by omega) x.2.2 h3
  have hB : imageLoop builder true (f + 1) ⟨1, d0.channels * d0.height * d0.width, true⟩
      ((recs.drop (f + 1)).take (j - f - 1))
      = (specBatchedAux imagePut Ev.commitImage 1000 1
          (successItems builder (f + 1) ((recs.drop (f + 1)).take (j - f - 1))),
         some ⟨1 + (successItems builder (f + 1) ((recs.drop (f + 1)).take (j - f - 1))).length,
           d0.channels * d0.height * d0.width, true⟩) :=
    imageLoop_checked builder _ (f + 1) ⟨1, d0.channels * d0.height * d0.width, true⟩ rfl hallB
  have hstepF : imageLoop builder true f ⟨0, 0, false⟩
      (recs.get ⟨f, hfl⟩ :: (recs.drop (f + 1)).take (j - f - 1))
      = (imagePut (f, recs.get ⟨f, hfl⟩, d0) ::
          specBatchedAux imagePut Ev.commitImage 1000 1
            (successItems builder (f + 1) ((recs.drop (f + 1)).take (j - f - 1))),
         some ⟨1 + (successItems builder (f + 1) ((recs.drop (f + 1)).take (j - f - 1))).length,
           d0.channels * d0.height * d0.width, true⟩) := by
    rw [imageLoop_cons_put builder true f ⟨0, 0, false⟩ _ _ d0 hf (by simp)]
    have hstep : imageStep true ⟨0, 0, false⟩ d0
        = (⟨1, d0.channels * d0.height * d0.width, true⟩ : ImgSt) := rfl
    rw [hstep, hB,
      if_neg (by norm_num :
        ¬ ((⟨1, d0.channels * d0.height * d0.width, true⟩ : ImgSt).count) % 1000 = 0),
      List.nil_append]
    rfl
  have htake : imageLoop builder true 0 ⟨0, 0, false⟩ (recs.take j)
      = (imagePut (f, recs.get ⟨f, hfl⟩, d0) ::
          specBatchedAux imagePut Ev.commitImage 1000 1
            (successItems builder (f + 1) ((recs.drop (f + 1)).take (j - f - 1))),
         some ⟨1 + (successItems builder (f + 1) ((recs.drop (f + 1)).take (j - f - 1))).length,
           d0.channels * d0.height * d0.width, true⟩) := by
    rw [htakej, imageLoop_append_some builder true (recs.take f) _ 0 ⟨0, 0, false⟩
      ⟨0, 0, false⟩ [] hA, hAlen, show (0 : Nat) + f = f by omega, hstepF, List.nil_append]
  have habort : imageLoop builder true j
      ⟨1 + (successItems builder (f + 1) ((recs.drop (f + 1)).take (j - f - 1))).length,
        d0.channels * d0.height * d0.width, true⟩
      (recs.get ⟨j, hj⟩ :: recs.drop (j + 1)) = ([], none) := by
    refine imageLoop_cons_abort builder true j _ _ _ dj hjs ?_
    simp [hmis]
  have hitems : successItems builder 0 (recs.take j)
      = (f, recs.get ⟨f, hfl⟩, d0) ::
        successItems builder (f + 1) ((recs.drop (f + 1)).take (j - f - 1)) := by
    rw [htakej, successItems_append builder (recs.take f) _ 0,
      successItems_all_fail builder (recs.take f) 0 hAskip, hAlen,
      show (0 : Nat) + f = f by omega, List.nil_append]
    have hf2 : builder f (recs[f]) = some d0 := hf
    simp [successItems, hf2]
  have hrecs : recs.take j ++ (recs.get ⟨j, hj⟩ :: recs.drop (j + 1)) = recs := by
    rw [← List.drop_eq_get_cons hj, List.take_append_drop]
  have hfull := imageLoop_append_some builder true (recs.take j)
    (recs.get ⟨j, hj⟩ :: recs.drop (j + 1)) 0 ⟨0, 0, false⟩
    ⟨1 + (successItems builder (f + 1) ((recs.drop (f + 1)).take (j - f - 1))).length,
      d0.channels * d0.height * d0.width, true⟩ _ htake
  rw [hrecs, List.length_take_of_le (Nat.le_of_lt hj),
    show (0 : Nat) + j = j by omega, habort, List.append_nil] at hfull
  rw [hfull, hitems]
  show (imagePut (f, recs.get ⟨f, hfl⟩, d0) ::
      specBatchedAux imagePut Ev.commitImage 1000 1
        (successItems builder (f + 1) ((recs.drop (f + 1)).take (j - f - 1))), none)
    = (imagePut (f, recs.get ⟨f, hfl⟩, d0) ::
        ((if (0 + 1) % 1000 = 0 then [Ev.commitImage] else []) ++
          specBatchedAux imagePut Ev.commitImage 1000 (0 + 1)
            (successItems builder (f + 1) ((recs.drop (f + 1)).take (j - f - 1)))), none)
  rw [if_neg (by norm_num : ¬ (0 + 1) % 1000 = 0), List.nil_append]

theorem imagePass_mismatch (recs : List Record) (builder : Nat → Record → Option ImgDatum)
    (f j : Nat) (hfj : f < j) (hj : j < recs.length) (d0 dj : ImgDatum)
    (hf : builder f (recs.get ⟨f, Nat.lt_trans hfj hj⟩) = some d0)
    (hfirst : ∀ k (hk : k < recs.length), k < f → builder k (recs.get ⟨k, hk⟩) = none)
    (hjs : builder j (recs.get ⟨j, hj⟩) = some dj)
    (hmis : dj.data.length ≠ d0.channels * d0.height * d0.width)
    (hmid : ∀ k (hk : k < recs.length), f < k → k < j →
      ∀ d, builder k (recs.get ⟨k, hk⟩) = some d →
      d.data.length = d0.channels * d0.height * d0.width) :
    imagePass builder true recs
      = (specBatchedAux imagePut Ev.commitImage 1000 0 (successItems builder 0 (recs.take j)),
         true) := by
  unfold imagePass
  rw [imageLoop_mismatch recs builder f j hfj hj d0 dj hf hfirst hjs hmis hmid]

/-- C1: for every record in the final ordering that is written to both
stores, the key used for its LabelPayload put in the label store and the
key used for its ImagePayload put in the image store are byte-identical:
both are the 8-digit zero-padded final-order index joined with `path_a` and
`path_b` by the `_` separator.  The label put always appears in the label
pass; when the builder succeeds for the record (and the size check is off,
so the image pass completes), the image put with the very same key appears
in the image pass. -/
theorem c1_key_alignment (recs : List Record) (builder : Nat → Record → Option ImgDatum)
    (i : Nat) (hi : i < recs.length) (d : ImgDatum)
    (hbd : builder i (recs.get ⟨i, hi⟩) = some d) :
    labelKeyStr i (recs.get ⟨i, hi⟩) = imageKeyStr i (recs.get ⟨i, hi⟩)
    ∧ labelKeyStr i (recs.get ⟨i, hi⟩)
        = format_int i 8 ++ "_" ++ (recs.get ⟨i, hi⟩).path_a ++ "_" ++ (recs.get ⟨i, hi⟩).path_b
    ∧ Ev.putLabel (labelKeyStr i (recs.get ⟨i, hi⟩)) (labelPayloadOf i (recs.get ⟨i, hi⟩))
        ∈ labelPass recs
    ∧ Ev.putImage (imageKeyStr i (recs.get ⟨i, hi⟩))
        (imagePayloadOf i (recs.get ⟨i, hi⟩) d) ∈ (imagePass builder false recs).1 := by
  refine ⟨rfl, rfl, labelPass_put_mem recs i hi, ?_⟩
  rw [imagePass_false]
  refine specBatched_put_mem imagePut Ev.commitImage 1000 _ (i, recs.get ⟨i, hi⟩, d) ?_
  have h := successItems_mem_intro builder recs 0 i hi d
    (by rw [Nat.zero_add]; exact hbd)
  rw [Nat.zero_add] at h
  exact h

/-- Witness for C1 at a one-record manifest with a succeeding builder. -/
theorem c1_key_alignment_witness :
    Ev.putLabel (labelKeyStr 0 ⟨"a", "b", "1"⟩) (labelPayloadOf 0 ⟨"a", "b", "1"⟩)
      ∈ labelPass [⟨"a", "b", "1"⟩]
    ∧ Ev.putImage (imageKeyStr 0 ⟨"a", "b", "1"⟩)
        (imagePayloadOf 0 ⟨"a", "b", "1"⟩ ⟨1, 1, 1, []⟩)
      ∈ (imagePass (fun _ _ => some ⟨1, 1, 1, []⟩) false [⟨"a", "b", "1"⟩]).1 := by
  have h := c1_key_alignment [⟨"a", "b", "1"⟩] (fun _ _ => some ⟨1, 1, 1, []⟩) 0
    (by decide) ⟨1, 1, 1, []⟩ rfl
  exact ⟨h.2.2.1, h.2.2.2⟩

/-- C2 (amended): keys of distinct final-order indices are always distinct
strings; and the lexicographic ordering of keys matches the final record
order whenever the larger index still fits in the fixed 8-digit zero-padded
field, i.e. `j < 10^8`.  Beyond eight digits the index is printed at its
natural width (the overflow boundary the specification flags), and the
ordering clause fails — see the counterexample. -/
theorem c2_key_order_amended (recs : List Record) (i j : Nat)
    (hi : i < recs.length) (hj : j < recs.length) :
    (i ≠ j → labelKeyStr i (recs.get ⟨i, hi⟩) ≠ labelKeyStr j (recs.get ⟨j, hj⟩))
    ∧ (i < j → j < 10 ^ 8 →
        labelKeyStr i (recs.get ⟨i, hi⟩) < labelKeyStr j (recs.get ⟨j, hj⟩)) := by
  constructor
  · intro hne heq
    exact hne (labelKeyStr_inj i j _ _ heq)
  · intro hij hj8
    exact labelKeyStr_lt i j _ _ hij hj8

/-- Witness for C2 (amended) on a two-record sequence. -/
theorem c2_key_order_witness :
    labelKeyStr 0 (⟨"a", "b", "1"⟩ : Record) ≠ labelKeyStr 1 (⟨"c", "d", "2"⟩ : Record)
    ∧ labelKeyStr 0 (⟨"a", "b", "1"⟩ : Record) < labelKeyStr 1 (⟨"c", "d", "2"⟩ : Record) := by
  have h := c2_key_order_amended [⟨"a", "b", "1"⟩, ⟨"c", "d", "2"⟩] 0 1 (by decide) (by decide)
  exact ⟨h.1 (by decide), h.2 (by decide) (by norm_num)⟩

/-- C2 counterexample: on a record sequence longer than `10^8`, final-order
indices `99999999 < 100000000` give keys `99999999_a_b` and `100000000_a_b`,
and the first is NOT lexicographically smaller than the second (a `9` byte
sorts after a `1` byte), so lexicographic key order does not match final
record order as the claim states it for all indices. -/
theorem c2_key_order_counterexample :
    99999999 < 100000000
    ∧ 100000000 < (List.replicate 100000001 (⟨"a", "b", "1"⟩ : Record)).length
    ∧ ¬ labelKeyStr 99999999
          ((List.replicate 100000001 (⟨"a", "b", "1"⟩ : Record)).getD 99999999 ⟨"a", "b", "1"⟩)
        < labelKeyStr 100000000
          ((List.replicate 100000001 (⟨"a", "b", "1"⟩ : Record)).getD 100000000 ⟨"a", "b", "1"⟩) := by
  refine ⟨by norm_num, ?_, ?_⟩
  · rw [List.length_replicate]
    norm_num
  · rw [getD_replicate_self, getD_replicate_self, String.lt_iff_toList_lt]
    decide

/-- C3: each writer batches independently.  The label pass equals the
specified batching discipline over its puts (one put per record, commit
exactly after every 1000th put, final commit iff the counter is not a
multiple of 1000 — a zero counter included); its commit count is
`N / 1000` plus one for a partial final batch; every put is followed by a
later commit; and the image pass (size check off) satisfies the same
discipline over the puts of the successfully built records.  A writer that
performs 1500 puts issues exactly 2 commits. -/
theorem c3_batched_commits (recs : List Record) (builder : Nat → Record → Option ImgDatum) :
    labelPass recs = specBatched labelPut Ev.commitLabel 1000 (numbered 0 recs)
    ∧ countEv Ev.commitLabel (labelPass recs)
        = recs.length / 1000 + (if recs.length % 1000 = 0 then 0 else 1)
    ∧ (∀ pre post k v, labelPass recs = pre ++ Ev.putLabel k v :: post →
        Ev.commitLabel ∈ post)
    ∧ (imagePass builder false recs).1
        = specBatched imagePut Ev.commitImage 1000 (successItems builder 0 recs)
    ∧ countEv Ev.commitImage (imagePass builder false recs).1
        = (successItems builder 0 recs).length / 1000
          + (if (successItems builder 0 recs).length % 1000 = 0 then 0 else 1)
    ∧ (∀ pre post k v, (imagePass builder false recs).1 = pre ++ Ev.putImage k v :: post →
        Ev.commitImage ∈ post)
    ∧ (recs.length = 1500 → countEv Ev.commitLabel (labelPass recs) = 2)
    ∧ ((successItems builder 0 recs).length = 1500 →
        countEv Ev.commitImage (imagePass builder false recs).1 = 2) := by
  have hpcL : ∀ x : Nat × Record, labelPut x ≠ Ev.commitLabel := fun x => by simp [labelPut]
  have hpcI : ∀ x : Nat × Record × ImgDatum, imagePut x ≠ Ev.commitImage :=
    fun x => by simp [imagePut]
  have hL := labelPass_spec recs
  have hI : (imagePass builder false recs).1
      = specBatched imagePut Ev.commitImage 1000 (successItems builder 0 recs) := by
    rw [imagePass_false]
  have hcountL : countEv Ev.commitLabel (labelPass recs)
      = recs.length / 1000 + (if recs.length % 1000 = 0 then 0 else 1) := by
    rw [hL, countEv_specBatched labelPut Ev.commitLabel hpcL, numbered_length]
  have hcountI : countEv Ev.commitImage (imagePass builder false recs).1
      = (successItems builder 0 recs).length / 1000
        + (if (successItems builder 0 recs).length % 1000 = 0 then 0 else 1) := by
    rw [hI, countEv_specBatched imagePut Ev.commitImage hpcI]
  refine ⟨hL, hcountL, ?_, hI, hcountI, ?_, ?_, ?_⟩
  · intro pre post k v hT
    rw [hL] at hT
    exact specBatched_cover labelPut Ev.commitLabel _ pre post _ hT (by simp)
  · intro pre post k v hT
    rw [hI] at hT
    exact specBatched_cover imagePut Ev.commitImage _ pre post _ hT (by simp)
  · intro h1500
    rw [hcountL, h1500]
    norm_num
  · intro h1500
    rw [hcountI, h1500]
    norm_num

/-- Witness for C3: 1500 records produce exactly 2 label-store commits. -/
theorem c3_batched_commits_witness :
    countEv Ev.commitLabel (labelPass (List.replicate 1500 (⟨"a", "b", "1"⟩ : Record))) = 2 := by
  have h := c3_batched_commits (List.replicate 1500 (⟨"a", "b", "1"⟩ : Record))
    (fun _ _ => none)
  exact h.2.2.2.2.2.2.1 (by rw [List.length_replicate])

/-- C4: a manifest with any line that does not split into exactly 3 tokens
makes the run fail during parsing (either by the token-count throw itself
or, on an earlier 3-token line with a non-numeric third token, by the
`std::stod` throw): the trace holds nothing but the manifest read, so
neither store is opened and no put or commit is performed. -/
theorem c4_parse_failure_no_writes (argv manifest : List String) (flags : Flags)
    (shuf : List Record → List Record) (builder : Nat → Record → Option ImgDatum)
    (h3 : 3 ≤ argv.length)
    (hbad : ∃ l ∈ manifest, (split ' ' l.data).length ≠ 3) :
    (run argv manifest flags shuf builder).1 = [Ev.readManifest (argv.getD 1 "")]
    ∧ (∃ e, (run argv manifest flags shuf builder).2 = Status.parseError e)
    ∧ ∀ ev ∈ (run argv manifest flags shuf builder).1,
        ev = Ev.readManifest (argv.getD 1 "") := by
  obtain ⟨e, he⟩ := run_parse_err argv manifest flags shuf builder h3 hbad
  rw [he]
  refine ⟨rfl, ⟨e, rfl⟩, ?_⟩
  intro ev hev
  simpa using hev

/-- Witness for C4 on a two-token line. -/
theorem c4_parse_failure_witness :
    (run ["convert_image_pair", "list.txt", "img_db", "lbl_db"] ["a b"] ⟨false, false⟩ id
      (fun _ _ => none)).1 = [Ev.readManifest "list.txt"]
    ∧ (run ["convert_image_pair", "list.txt", "img_db", "lbl_db"] ["a b"] ⟨false, false⟩ id
      (fun _ _ => none)).2 = Status.parseError (ParseError.tokenCount 0) := by
  have h := c4_parse_failure_no_writes ["convert_image_pair", "list.txt", "img_db", "lbl_db"]
    ["a b"] ⟨false, false⟩ id (fun _ _ => none) (by norm_num)
    ⟨"a b", by decide, by decide⟩
  exact ⟨h.1, rfl⟩

/-- C5 (code bug): the parse loop declares `line_no` to report the 0-based
index of the offending line in its error message, but never increments it,
so the reported number is always 0.  Here the line at index 0 is fully well
formed — three tokens and a numeric third token, so `std::stod` accepts it
and the loop reaches the next line — while the first malformed line (two
tokens) sits at 0-based index 1; yet the token-count error carries line
number 0. -/
theorem c5_line_number_bug :
    (split ' ' ("a b 1" : String).data).length = 3
    ∧ stodOk "1" = true
    ∧ (split ' ' ("x y" : String).data).length ≠ 3
    ∧ parseManifest ["a b 1", "x y"] = .error (ParseError.tokenCount 0) :=
  ⟨by decide, by decide, by decide, rfl⟩

/-- C6: when the image builder fails for a record, no put with that
record's key reaches the image store, the record's LabelPayload has
nonetheless been written by the label pass under that same key, and the
image pass (size check off) continues and completes normally: it does not
abort, and every other record whose build succeeds still gets its put. -/
theorem c6_image_skip (recs : List Record) (builder : Nat → Record → Option ImgDatum)
    (i : Nat) (hi : i < recs.length)
    (hfail : builder i (recs.get ⟨i, hi⟩) = none) :
    (∀ v, Ev.putImage (imageKeyStr i (recs.get ⟨i, hi⟩)) v ∉ (imagePass builder false recs).1)
    ∧ Ev.putLabel (labelKeyStr i (recs.get ⟨i, hi⟩)) (labelPayloadOf i (recs.get ⟨i, hi⟩))
        ∈ labelPass recs
    ∧ (imagePass builder false recs).2 = false
    ∧ (∀ j (hj : j < recs.length) (d : ImgDatum),
        builder j (recs.get ⟨j, hj⟩) = some d →
        Ev.putImage (imageKeyStr j (recs.get ⟨j, hj⟩)) (imagePayloadOf j (recs.get ⟨j, hj⟩) d)
          ∈ (imagePass builder false recs).1) := by
  refine ⟨?_, labelPass_put_mem recs i hi, ?_, ?_⟩
  · intro v hv
    rw [imagePass_false] at hv
    rcases mem_specBatched imagePut Ev.commitImage 1000 (successItems builder 0 recs) _ hv
      with h | ⟨x, hx, hkeq⟩
    · exact Ev.noConfusion h
    · obtain ⟨k, hk, h1, h2, h3⟩ := successItems_mem builder recs 0 x hx
      rw [imagePut] at hkeq
      have hkeys : imageKeyStr i (recs.get ⟨i, hi⟩) = imageKeyStr x.1 x.2.1 := by
        injection hkeq with hkeys _
      have hix : i = x.1 := by
        refine labelKeyStr_inj i x.1 (recs.get ⟨i, hi⟩) x.2.1 ?_
        rw [← imageKeyStr_eq_labelKeyStr, ← imageKeyStr_eq_labelKeyStr]
        exact hkeys
      have hik : i = k := by omega
      subst hik
      have hget : recs.get ⟨i, hi⟩ = recs.get ⟨i, hk⟩ := rfl
      rw [hget] at hfail
      rw [← h2] at hfail
      rw [← hix] at h3
      rw [hfail] at h3
      exact Option.noConfusion h3
  · rw [imagePass_false]
  · intro j hj d hbd
    rw [imagePass_false]
    refine specBatched_put_mem imagePut Ev.commitImage 1000 _ (j, recs.get ⟨j, hj⟩, d) ?_
    have h := successItems_mem_intro builder recs 0 j hj d (by rw [Nat.zero_add]; exact hbd)
    rw [Nat.zero_add] at h
    exact h

/-- Witness for C6: the single record's build fails; the label put is
present, the skipped pass completes without failing. -/
theorem c6_image_skip_witness :
    Ev.putLabel (labelKeyStr 0 ⟨"a", "b", "1"⟩) (labelPayloadOf 0 ⟨"a", "b", "1"⟩)
      ∈ labelPass [⟨"a", "b", "1"⟩]
    ∧ (imagePass (fun _ _ => none) false [⟨"a", "b", "1"⟩]).2 = false := by
  have h := c6_image_skip [⟨"a", "b", "1"⟩] (fun _ _ => none) 0 (by decide) rfl
  exact ⟨h.2.1, h.2.2.1⟩

/-- C7: with the size check on, the first successful build records
`channels*height*width` as the expected size; at the first later success
whose byte length differs, the run aborts fatally before that record's
put: the pass reports the abort, the offending record's key is never put,
the puts staged are exactly the earlier successes, and the only commits in
the trace are the full-batch commits among them (`s / 1000` for `s` staged
puts) — the batch that would contain the offending record is never
committed. -/
theorem c7_size_mismatch_abort (recs : List Record) (builder : Nat → Record → Option ImgDatum)
    (f j : Nat) (hfj : f < j) (hj : j < recs.length) (d0 dj : ImgDatum)
    (hf : builder f (recs.get ⟨f, Nat.lt_trans hfj hj⟩) = some d0)
    (hfirst : ∀ k (hk : k < recs.length), k < f → builder k (recs.get ⟨k, hk⟩) = none)
    (hjs : builder j (recs.get ⟨j, hj⟩) = some dj)
    (hmis : dj.data.length ≠ d0.channels * d0.height * d0.width)
    (hmid : ∀ k (hk : k < recs.length), f < k → k < j →
      ∀ d, builder k (recs.get ⟨k, hk⟩) = some d →
      d.data.length = d0.channels * d0.height * d0.width) :
    (imagePass builder true recs).2 = true
    ∧ (∀ v, Ev.putImage (imageKeyStr j (recs.get ⟨j, hj⟩)) v ∉ (imagePass builder true recs).1)
    ∧ countEv Ev.commitImage (imagePass builder true recs).1
        = (successItems builder 0 (recs.take j)).length / 1000
    ∧ countEvP isImagePut (imagePass builder true recs).1
        = (successItems builder 0 (recs.take j)).length := by
  have hkey := imagePass_mismatch recs builder f j hfj hj d0 dj hf hfirst hjs hmis hmid
  refine ⟨?_, ?_, ?_, ?_⟩
  · rw [hkey]
  · intro v hv
    rw [hkey] at hv
    rcases mem_specAux imagePut Ev.commitImage 1000 (successItems builder 0 (recs.take j)) 0
      _ hv with h | ⟨x, hx, hkeq⟩
    · exact Ev.noConfusion h
    · obtain ⟨k, hk, h1, h2, h3⟩ := successItems_mem builder (recs.take j) 0 x hx
      rw [List.length_take_of_le (Nat.le_of_lt hj)] at hk
      have hxj : x.1 < j := by omega
      rw [imagePut] at hkeq
      have hkeys : imageKeyStr j (recs.get ⟨j, hj⟩) = imageKeyStr x.1 x.2.1 := by
        injection hkeq with hkeys _
      have hjx : j = x.1 := by
        refine labelKeyStr_inj j x.1 (recs.get ⟨j, hj⟩) x.2.1 ?_
        rw [← imageKeyStr_eq_labelKeyStr, ← imageKeyStr_eq_labelKeyStr]
        exact hkeys
      omega
  · rw [hkey]
    show countEv Ev.commitImage (specBatchedAux imagePut Ev.commitImage 1000 0
      (successItems builder 0 (recs.take j))) = _
    rw [countEv_specAux imagePut Ev.commitImage (fun x => by simp [imagePut]) _ 0]
    omega
  · rw [hkey]
    show countEvP isImagePut (specBatchedAux imagePut Ev.commitImage 1000 0
      (successItems builder 0 (recs.take j))) = _
    rw [countEvP_specAux isImagePut imagePut Ev.commitImage 1000
      (fun x => by simp [imagePut, isImagePut]) (by simp [isImagePut])]

/-- Witness for C7: two records, the second successful build is one byte
longer than the first; the pass aborts, commits nothing, and staged
exactly the one earlier put. -/
theorem c7_size_mismatch_witness :
    (imagePass (fun i _ => if i = 0 then some ⟨1, 1, 1, [0]⟩ else some ⟨1, 1, 1, [0, 0]⟩)
      true [⟨"a", "b", "1"⟩, ⟨"c", "d", "2"⟩]).2 = true
    ∧ countEv Ev.commitImage
        (imagePass (fun i _ => if i = 0 then some ⟨1, 1, 1, [0]⟩ else some ⟨1, 1, 1, [0, 0]⟩)
          true [⟨"a", "b", "1"⟩, ⟨"c", "d", "2"⟩]).1 = 0
    ∧ countEvP isImagePut
        (imagePass (fun i _ => if i = 0 then some ⟨1, 1, 1, [0]⟩ else some ⟨1, 1, 1, [0, 0]⟩)
          true [⟨"a", "b", "1"⟩, ⟨"c", "d", "2"⟩]).1 = 1 := by
  have h := c7_size_mismatch_abort [⟨"a", "b", "1"⟩, ⟨"c", "d", "2"⟩]
    (fun i _ => if i = 0 then some ⟨1, 1, 1, [0]⟩ else some ⟨1, 1, 1, [0, 0]⟩)
    0 1 (by decide) (by decide) ⟨1, 1, 1, [0]⟩ ⟨1, 1, 1, [0, 0]⟩ rfl
    (fun k hk hk0 => absurd hk0 (Nat.not_lt_zero k)) rfl (by decide)
    (fun k hk hk1 hk2 d _ => absurd (Nat.lt_of_lt_of_le hk2 hk1) (Nat.lt_irrefl k))
  refine ⟨h.1, ?_, ?_⟩
  · rw [h.2.2.1]
    rfl
  · rw [h.2.2.2]
    rfl

/-- C8 (amended): the first positional argument is the manifest path; the
SECOND positional argument is the image-store destination and the THIRD the
label-store destination (the tool's own usage string,
`LISTFILE DB_NAME_IMAGES DB_NAME_LABELS`, and `db1->Open(argv[3])` /
`db->Open(argv[2])` agree on this; the spec's `§6` lists the two stores in
the opposite order).  Every manifest read uses `argv[1]`, every label-store
open uses `argv[3]` and every image-store open uses `argv[2]`. -/
theorem c8_cli_destinations (argv manifest : List String) (flags : Flags)
    (shuf : List Record → List Record) (builder : Nat → Record → Option ImgDatum)
    (h3 : 3 ≤ argv.length)
    (hok : ∀ l ∈ manifest, (split ' ' l.data).length = 3)
    (hnum : ∀ l ∈ manifest, stodOk (lineRecord l).scalar_tok = true) :
    Ev.readManifest (argv.getD 1 "") ∈ (run argv manifest flags shuf builder).1
    ∧ Ev.openLabelStore (argv.getD 3 "") ∈ (run argv manifest flags shuf builder).1
    ∧ Ev.openImageStore (argv.getD 2 "") ∈ (run argv manifest flags shuf builder).1
    ∧ (∀ p, Ev.readManifest p ∈ (run argv manifest flags shuf builder).1 →
        p = argv.getD 1 "")
    ∧ (∀ p, Ev.openLabelStore p ∈ (run argv manifest flags shuf builder).1 →
        p = argv.getD 3 "")
    ∧ (∀ p, Ev.openImageStore p ∈ (run argv manifest flags shuf builder).1 →
        p = argv.getD 2 "") := by
  rw [run_parse_ok argv manifest flags shuf builder h3 hok hnum]
  refine ⟨by simp, by simp, by simp, ?_, ?_, ?_⟩
  · intro p hp
    simp only [List.append_assoc, List.mem_append, List.mem_singleton, List.mem_cons,
      List.not_mem_nil, or_false] at hp
    rcases hp with h | h | h | h | h
    · injection h
    · injection h
    · rcases labelPass_mem_kind _ _ h with ⟨k, v, he⟩ | he
      · exact Ev.noConfusion he
      · exact Ev.noConfusion he
    · injection h
    · rcases imagePass_mem_kind _ _ _ _ h with ⟨k, v, he⟩ | he
      · exact Ev.noConfusion he
      · exact Ev.noConfusion he
  · intro p hp
    simp only [List.append_assoc, List.mem_append, List.mem_singleton, List.mem_cons,
      List.not_mem_nil, or_false] at hp
    rcases hp with h | h | h | h | h
    · injection h
    · injection h
    · rcases labelPass_mem_kind _ _ h with ⟨k, v, he⟩ | he
      · exact Ev.noConfusion he
      · exact Ev.noConfusion he
    · injection h
    · rcases imagePass_mem_kind _ _ _ _ h with ⟨k, v, he⟩ | he
      · exact Ev.noConfusion he
      · exact Ev.noConfusion he
  · intro p hp
    simp only [List.append_assoc, List.mem_append, List.mem_singleton, List.mem_cons,
      List.not_mem_nil, or_false] at hp
    rcases hp with h | h | h | h | h
    · injection h
    · injection h
    · rcases labelPass_mem_kind _ _ h with ⟨k, v, he⟩ | he
      · exact Ev.noConfusion he
      · exact Ev.noConfusion he
    · injection h
    · rcases imagePass_mem_kind _ _ _ _ h with ⟨k, v, he⟩ | he
      · exact Ev.noConfusion he
      · exact Ev.noConfusion he

/-- Witness for C8 (amended) at a concrete invocation. -/
theorem c8_cli_destinations_witness :
    Ev.readManifest "m" ∈ (run ["prog", "m", "imgdb", "lbldb"] [] ⟨false, false⟩ id
      (fun _ _ => none)).1
    ∧ Ev.openLabelStore "lbldb" ∈ (run ["prog", "m", "imgdb", "lbldb"] [] ⟨false, false⟩ id
      (fun _ _ => none)).1
    ∧ Ev.openImageStore "imgdb" ∈ (run ["prog", "m", "imgdb", "lbldb"] [] ⟨false, false⟩ id
      (fun _ _ => none)).1 := by
  have h := c8_cli_destinations ["prog", "m", "imgdb", "lbldb"] [] ⟨false, false⟩ id
    (fun _ _ => none) (by norm_num) (fun l hl => absurd hl (List.not_mem_nil l))
    (fun l hl => absurd hl (List.not_mem_nil l))
  exact ⟨h.1, h.2.1, h.2.2.1⟩

/-- C8 counterexample: at `argv = [prog, m, imgdb, lbldb]` the label store
is opened at `argv[3] = lbldb`, not at the second positional argument
`argv[2] = imgdb` as the claim states; `argv[2]` is the image store. -/
theorem c8_cli_counterexample :
    Ev.openLabelStore "lbldb" ∈ (run ["prog", "m", "imgdb", "lbldb"] [] ⟨false, false⟩ id
      (fun _ _ => none)).1
    ∧ Ev.openLabelStore "imgdb" ∉ (run ["prog", "m", "imgdb", "lbldb"] [] ⟨false, false⟩ id
      (fun _ _ => none)).1
    ∧ Ev.openImageStore "imgdb" ∈ (run ["prog", "m", "imgdb", "lbldb"] [] ⟨false, false⟩ id
      (fun _ _ => none)).1 := by
  decide

/-- C9 (code bug): the guard is `argc < 3`, but three positional arguments
mean `argc = 4`.  An invocation with only two positional arguments
(`argc = 3`) is NOT rejected: the run proceeds, parses the manifest and
opens the label store at `argv[3]` — in C that slot is the argv-terminating
null pointer, modelled here as `""`.  Only with fewer than two positional
arguments does the usage path fire. -/
theorem c9_usage_check_bug :
    (run ["convert_image_pair", "list.txt", "images_db"] [] ⟨false, false⟩ id
      (fun _ _ => none)).2 ≠ Status.usage
    ∧ Ev.openLabelStore "" ∈ (run ["convert_image_pair", "list.txt", "images_db"] []
      ⟨false, false⟩ id (fun _ _ => none)).1
    ∧ (run ["convert_image_pair", "list.txt"] [] ⟨false, false⟩ id
      (fun _ _ => none)).2 = Status.usage := by
  decide

/-- C10 (amended): when every line of the manifest — empty lines included —
splits into exactly 3 tokens AND every third token is accepted by
`std::stod` (it begins a numeric literal; the `out_of_range` throw for
well-formed literals beyond the `double` range is outside the model),
parsing succeeds with exactly one record per line, in line order.  An empty
line is NOT skipped: the splitter always produces at least one token, so an
empty line yields one (empty) token and is a fatal parse error; and a
3-token line with a non-numeric third token aborts in `std::stod` — see the
counterexample. -/
theorem c10_parse_records (lines : List String)
    (h : ∀ l ∈ lines, (split ' ' l.data).length = 3)
    (hnum : ∀ l ∈ lines, stodOk (lineRecord l).scalar_tok = true) :
    parseManifest lines = .ok (lines.map lineRecord)
    ∧ (lines.map lineRecord).length = lines.length :=
  ⟨parseManifest_ok lines h hnum, by rw [List.length_map]⟩

/-- Witness for C10 (amended) on a one-line manifest with a numeric third
token. -/
theorem c10_parse_records_witness :
    parseManifest ["a b 1"] = .ok (["a b 1"].map lineRecord)
    ∧ (["a b 1"].map lineRecord).length = ["a b 1"].length :=
  c10_parse_records ["a b 1"] (by decide) (by decide)

/-- C10 counterexample, refuting the claim as stated on both counts.
First, 3 tokens per non-empty line do not make parsing succeed: on the
manifest with the single line `a b c` every (non-empty) line splits into
exactly 3 tokens, yet the run aborts in `std::stod("c")`.  Second, empty
lines do cause failure: with a fully well-formed first line `a b 1` (so
`std::stod` accepts it and the loop reaches the empty line), the empty
line splits into one empty token — not zero — fails the 3-token check and
aborts ingestion. -/
theorem c10_parse_counterexample :
    ((split ' ' ("a b c" : String).data).length = 3
      ∧ parseManifest ["a b c"] = .error ParseError.stodInvalid)
    ∧ (split ' ' ("" : String).data).length = 1
    ∧ parseManifest ["a b 1", ""] = .error (ParseError.tokenCount 0) :=
  ⟨⟨by decide, rfl⟩, by decide, rfl⟩
